import Mathlib

/-!
Verification of `src/tools/build.py` (Libertinus font build script).

The Python source is shallowly embedded below.  Numbers that Python holds as
`int`/`float` are modelled as `ℚ` (exact rational arithmetic); Python's
`round` (banker's rounding, round-half-to-even) is `pyRound`, Python's `int()`
truncation toward zero is `pyInt`.  Python `dict`s are modelled as insertion
ordered association lists, `dict` lookup is `dictGet`.  Fallible code returns
`Except String` (an `Except.error` models a raised exception aborting the
compile).  External collaborators (the sfd parser, psautohint, pathops and the
fontTools black boxes) enter only through their input/output contracts: glyph
bounding boxes are an oracle `String → Option BBox` (`getBounds` returns
`None` for an empty glyph), and `fontTools.otlLib.builder.buildCoverage` is
embedded from its documented/actual behaviour (sort by glyph id, `None` on an
empty glyph set).
-/

namespace Libertinus

/-- Python `round` on an exact rational: round half to even (banker's
rounding), as used by `round(glyph.width / minwidth)` in
`Font._make_over_under_line` (build.py line 157). -/
def pyRound (q : ℚ) : ℤ :=
  if q - ⌊q⌋ < 1/2 then ⌊q⌋
  else if 1/2 < q - ⌊q⌋ then ⌊q⌋ + 1
  else if ⌊q⌋ % 2 = 0 then ⌊q⌋ else ⌊q⌋ + 1

/-- Python `int()` applied to a number: truncation toward zero, as used by
`int(bbox[-1] - bbox[1] + 1)` in `Font._post_process` (build.py line 274). -/
def pyInt (q : ℚ) : ℤ := if 0 ≤ q then ⌊q⌋ else ⌈q⌉

/-- A Python value as far as the width expression of
`OutlineCompiler.getCharStringForGlyph` (build.py line 82) is concerned:
`None`, a boolean (result of `==`), or a number. -/
inductive PyVal where
  | noneV : PyVal
  | boolV (b : Bool) : PyVal
  | numV (q : ℚ) : PyVal
deriving DecidableEq

/-- Python truthiness: `None` and `False` are falsy, a number is falsy iff
it is zero. -/
def truthy : PyVal → Bool
  | .noneV => false
  | .boolV b => b
  | .numV q => decide (q ≠ 0)

/-- Python `a and b`: returns `a` if `a` is falsy, else `b`. -/
def pyAnd (a b : PyVal) : PyVal := if truthy a then b else a

/-- Python `a or b`: returns `a` if `a` is truthy, else `b`. -/
def pyOr (a b : PyVal) : PyVal := if truthy a then a else b

/-- build.py line 82:
`width = glyph.width == defaultWidth and None or glyph.width - nominalWidth`,
with Python's `and`/`or` evaluation order (`and` binds tighter). -/
def computeWidth (width defaultWidth nominalWidth : ℚ) : PyVal :=
  pyOr (pyAnd (.boolV (decide (width = defaultWidth))) .noneV)
       (.numV (width - nominalWidth))

/-- `HintPen.getCharString` (build.py lines 58-66): the hinted charstring
program (an opaque operator list produced by `convertBezToT2`) gets the width
operand inserted at position 0 when the computed width is not `None`
(`if self._width is not None: program.insert(0, self._width)`). -/
def charstringProgram (width defaultWidth nominalWidth : ℚ)
    (hintedProgram : List ℚ) : List ℚ :=
  match computeWidth width defaultWidth nominalWidth with
  | .numV v => v :: hintedProgram
  | _ => hintedProgram

/-- The computed width operand is never `None`: `x and None or y` evaluates
to `y` because `None` is falsy, so the `or` always takes its right operand. -/
theorem computeWidth_eq_numV (w dw nw : ℚ) :
    computeWidth w dw nw = .numV (w - nw) := by
  unfold computeWidth pyAnd pyOr truthy
  by_cases h : w = dw <;> simp [h]

/-- `Font._make_over_under_line` width bucket (build.py lines 157-158):
`width = round(glyph.width / minwidth) * minwidth; width = max(width, minwidth)`
with `minwidth = 50`. -/
def bucket (w : ℚ) : ℤ := max (pyRound (w / 50) * 50) 50

theorem pyRound_bounds (q : ℚ) :
    q - 1/2 ≤ (pyRound q : ℚ) ∧ (pyRound q : ℚ) ≤ q + 1/2 := by
  have hfl : (⌊q⌋ : ℚ) ≤ q := Int.floor_le q
  have hfr : q - 1 < (⌊q⌋ : ℚ) := by
    have := Int.lt_floor_add_one q
    linarith
  unfold pyRound
  split
  · constructor <;> linarith
  · split
    · constructor <;> push_cast <;> linarith
    · split <;> constructor <;> push_cast <;> linarith

theorem pyRound_mono {q₁ q₂ : ℚ} (h : q₁ ≤ q₂) : pyRound q₁ ≤ pyRound q₂ := by
  by_contra hlt
  push_neg at hlt
  have hint : pyRound q₂ + 1 ≤ pyRound q₁ := hlt
  have hcast : (pyRound q₂ : ℚ) + 1 ≤ (pyRound q₁ : ℚ) := by exact_mod_cast hint
  have b₁ := pyRound_bounds q₁
  have b₂ := pyRound_bounds q₂
  have : q₁ = q₂ := by linarith
  subst this
  omega

theorem bucket_mono {w₁ w₂ : ℚ} (h : w₁ ≤ w₂) : bucket w₁ ≤ bucket w₂ := by
  unfold bucket
  have hdiv : w₁ / 50 ≤ w₂ / 50 := by linarith
  have hr : pyRound (w₁ / 50) ≤ pyRound (w₂ / 50) := pyRound_mono hdiv
  have : pyRound (w₁ / 50) * 50 ≤ pyRound (w₂ / 50) * 50 := by nlinarith
  omega

theorem bucket_ge (w : ℚ) : 50 ≤ bucket w := le_max_right _ _

/-! ## Data model -/

/-- A glyph bounding box, the result of `glyph.getBounds(font)`:
the Python tuple `(xMin, yMin, xMax, yMax)`, so `bbox[0] = xMin`,
`bbox[1] = yMin`, `bbox[-2] = xMax`, `bbox[-1] = yMax`. -/
structure BBox where
  xMin : ℚ
  yMin : ℚ
  xMax : ℚ
  yMax : ℚ
deriving DecidableEq

/-- The per-glyph mathematical metadata dictionary `glyph.lib[MATH_KEY]`.
Each field is `none` when the corresponding key is absent.  Values of the
variant keys are glyph-name lists; composition values are lists of
`(component glyph name, "flags,start,end,advance")` pairs, exactly the shape
`Font._post_process` consumes. -/
structure MathDict where
  IsExtendedShape : Option ℚ
  ItalicCorrection : Option ℚ
  TopAccentHorizontal : Option ℚ
  GlyphVariantsVertical : Option (List String)
  GlyphCompositionVertical : Option (List (String × String))
  GlyphVariantsHorizontal : Option (List String)
  GlyphCompositionHorizontal : Option (List (String × String))
deriving DecidableEq

/-- Python dict truthiness for the metadata dictionary: empty means falsy. -/
def MathDict.isEmpty (m : MathDict) : Bool :=
  m.IsExtendedShape.isNone && m.ItalicCorrection.isNone &&
  m.TopAccentHorizontal.isNone && m.GlyphVariantsVertical.isNone &&
  m.GlyphCompositionVertical.isNone && m.GlyphVariantsHorizontal.isNone &&
  m.GlyphCompositionHorizontal.isNone

/-- A glyph of the in-memory (UFO) font model: name, advance width,
`lib[GLYPHCLASS_KEY]`, `lib[MATH_KEY]`, and drawn contours (point lists;
only the over/underline synthesizer creates contours in this file). -/
structure Glyph where
  name : String
  width : ℚ
  glyphclass : Option String
  math : Option MathDict
  contours : List (List (ℚ × ℚ))
deriving DecidableEq

/-- The font model: the glyph list in iteration order (`for glyph in font`),
`font.glyphOrder` (defines glyph ids), the bounding-box oracle
(`font[name].getBounds(font)`, `none` both for a missing and for an empty
glyph), the font-level math constants dictionary `font.lib.get(MATH_KEY)`
(`none` when the key is absent) and the feature text. -/
structure Font where
  glyphs : List Glyph
  glyphOrder : List String
  bounds : String → Option BBox
  libMath : Option (List (String × ℚ))
  features : String

/-- Python `d[k]` / `d.get(k)` on an insertion-ordered association list. -/
def dictGet {α β : Type _} [BEq α] (d : List (α × β)) (k : α) : Option β :=
  (d.find? (fun p => p.fst == k)).map Prod.snd

/-! ## Auxiliary glyph synthesizer (`Font._make_over_under_line`) -/

/-- Python `widths[width].append(name)` preceded by
`if width not in widths: widths[width] = []` — insertion-ordered dict of
lists (build.py lines 159-161). -/
def addWidth (ws : List (ℤ × List String)) (w : ℤ) (n : String) :
    List (ℤ × List String) :=
  match ws with
  | [] => [(w, [n])]
  | (k, ns) :: rest =>
    if k = w then (k, ns ++ [n]) :: rest else (k, ns) :: addWidth rest w n

/-- The `widths` dict of `Font._make_over_under_line` (build.py lines
153-161): every glyph whose class is not `"mark"` and whose advance width is
positive is appended under its width bucket. -/
def collectWidths (glyphs : List Glyph) : List (ℤ × List String) :=
  glyphs.foldl
    (fun ws g =>
      if g.glyphclass ≠ some "mark" ∧ 0 < g.width then
        addWidth ws (bucket g.width) g.name
      else ws)
    []

/-- `font.newGlyph` followed by attribute assignment: the new glyph is added
to the font (at the end of the glyph list and of the glyph order). -/
def Font.addGlyph (f : Font) (g : Glyph) : Font :=
  { f with glyphs := f.glyphs ++ [g], glyphOrder := f.glyphOrder ++ [g.name] }

/-- `Font._draw_over_under_line` (build.py lines 125-141): for each bucket
width in ascending order, create `{name}.{width}` with zero advance, mark
class, and a rectangular bar contour at the base glyph's vertical position.
`none` models the crash when the base glyph has no outline
(`bbox = None` is unsubscriptable). -/
def drawOverUnderLine (font : Font) (name : String) (widths : List ℤ) :
    Option Font :=
  match font.bounds name with
  | none => none
  | some bbox =>
    let pos := bbox.yMin
    let height := bbox.yMax - bbox.yMin
    some ((widths.insertionSort (· ≤ ·)).foldl
      (fun f w =>
        f.addGlyph
          { name := name ++ "." ++ toString w
            width := 0
            glyphclass := some "mark"
            math := none
            contours := [[((-25 : ℚ) - w, pos), ((-25 : ℚ) - w, pos + height),
                          (25, pos + height), (25, pos)]] })
      font)

/-- The feature text lines appended by `Font._make_over_under_line`
(build.py lines 169-181). -/
def feaLines (bases : List String) (widths : List (ℤ × List String)) :
    List String :=
  ["feature mark \x7b",
   "  @OverSet = [" ++ String.intercalate " " bases ++ "];",
   "  lookupflag UseMarkFilteringSet @OverSet;"]
  ++ ((widths.map Prod.fst).insertionSort (· ≤ ·)).map (fun w =>
      "  sub [" ++ String.intercalate " " ((dictGet widths w).getD []) ++
      "] [" ++ String.intercalate " " bases ++ "]\x27 by [" ++
      String.intercalate " " (bases.map (fun n => n ++ "." ++ toString w)) ++
      "];")
  ++ ["\x7d mark;"]

/-- `Font._make_over_under_line` (build.py lines 143-183): find the present
base glyphs, bucket the non-mark positive-width glyphs, return unchanged when
no base exists or only one bucket exists; otherwise draw the variant glyphs
and append the contextual substitution feature text. -/
def makeOverUnderLine (font : Font) : Option Font :=
  let bases := ["uni0305", "uni0332"].filter
    (fun n => font.glyphs.any (fun g => g.name == n))
  if bases.isEmpty then some font
  else
    let widths := collectWidths font.glyphs
    if widths.length = 1 then some font
    else
      match bases.foldlM
        (fun f name => drawOverUnderLine f name (widths.map Prod.fst)) font with
      | none => none
      | some font1 =>
        some { font1 with
          features := font1.features ++ String.intercalate "\n" (feaLines bases widths) }

/-! ## Class finalizer (`Font._post_process`, GDEF part) -/

/-- build.py lines 187-191: for every glyph whose `lib` classifies it as
`"mark"`, overwrite its entry of the compiled GDEF glyph class table with the
numeric mark class `3`. -/
def postProcessGDEF (glyphs : List Glyph) (classdef : String → ℤ) :
    String → ℤ :=
  glyphs.foldl
    (fun cd g =>
      if g.glyphclass = some "mark" then Function.update cd g.name 3 else cd)
    classdef

/-! ## MATH table builder (`Font._post_process`, MATH part) -/

/-- A constant stored in `table.MathConstants`: either wrapped in a
`MathValueRecord` (`record`) or a raw scalar (`raw`). -/
inductive MathConstantValue where
  | raw (v : ℚ) : MathConstantValue
  | record (v : ℚ) : MathConstantValue
deriving DecidableEq

/-- The name tuple of build.py lines 207-211: constants NOT wrapped in a
`MathValueRecord`. -/
def rawConstantNames : List String :=
  ["ScriptPercentScaleDown", "ScriptScriptPercentScaleDown",
   "DelimitedSubFormulaMinHeight", "DisplayOperatorMinHeight",
   "RadicalDegreeBottomRaisePercent"]

/-- build.py lines 203-215: every constant except `MinConnectorOverlap`
(which is skipped by `continue`) is set on `table.MathConstants`; the five
names of the tuple at lines 207-211 are stored as raw scalars, every other
name is wrapped in a `MathValueRecord`. -/
def buildMathConstants (constants : List (String × ℚ)) :
    List (String × MathConstantValue) :=
  constants.filterMap (fun cv =>
    if cv.fst = "MinConnectorOverlap" then none
    else if cv.fst ∈ rawConstantNames then some (cv.fst, .raw cv.snd)
    else some (cv.fst, .record cv.snd))

/-- `math = glyph.lib.get(MATH_KEY); if math:` — the glyph's math dictionary
when present and non-empty (an empty dict is falsy), else `none`. -/
def glyphMath (g : Glyph) : Option MathDict :=
  match g.math with
  | none => none
  | some m => if m.isEmpty then none else some m

/-- build.py lines 226-227: glyphs with an `IsExtendedShape` entry (the
`extended` set, in glyph iteration order). -/
def extractExtended (g : Glyph) : Option String :=
  match glyphMath g with
  | none => none
  | some m => if m.IsExtendedShape.isSome then some g.name else none

/-- build.py lines 228-230: the `italic` dict entry contributed by a glyph. -/
def extractItalic (g : Glyph) : Option (String × ℚ) :=
  match glyphMath g with
  | none => none
  | some m => m.ItalicCorrection.map (fun v => (g.name, v))

/-- build.py lines 231-233: the `accent` dict entry contributed by a glyph. -/
def extractAccent (g : Glyph) : Option (String × ℚ) :=
  match glyphMath g with
  | none => none
  | some m => m.TopAccentHorizontal.map (fun v => (g.name, v))

/-- build.py lines 234-235: the `vvars` dict entry contributed by a glyph. -/
def extractVVars (g : Glyph) : Option (String × List String) :=
  match glyphMath g with
  | none => none
  | some m => m.GlyphVariantsVertical.map (fun vs => (g.name, vs))

/-- build.py lines 236-237: the `vcomp` dict entry — only recorded when the
same glyph also has `GlyphVariantsVertical` (the check is nested inside the
variants branch). -/
def extractVComp (g : Glyph) : Option (String × List (String × String)) :=
  match glyphMath g with
  | none => none
  | some m =>
    match m.GlyphVariantsVertical with
    | none => none
    | some _ => m.GlyphCompositionVertical.map (fun c => (g.name, c))

/-- build.py lines 238-239: the `hvars` dict entry contributed by a glyph. -/
def extractHVars (g : Glyph) : Option (String × List String) :=
  match glyphMath g with
  | none => none
  | some m => m.GlyphVariantsHorizontal.map (fun vs => (g.name, vs))

/-- build.py lines 240-241: the `hcomp` dict entry — only recorded when the
same glyph also has `GlyphVariantsHorizontal`. -/
def extractHComp (g : Glyph) : Option (String × List (String × String)) :=
  match glyphMath g with
  | none => none
  | some m =>
    match m.GlyphVariantsHorizontal with
    | none => none
    | some _ => m.GlyphCompositionHorizontal.map (fun c => (g.name, c))

/-- The `italic` dict after the glyph loop (build.py lines 223-241). -/
def collectItalic (glyphs : List Glyph) : List (String × ℚ) :=
  glyphs.filterMap extractItalic

/-- The `accent` dict after the glyph loop. -/
def collectAccent (glyphs : List Glyph) : List (String × ℚ) :=
  glyphs.filterMap extractAccent

/-- The `extended` set after the glyph loop (as a list in iteration order;
glyph names are unique in a font, so it has no duplicates). -/
def collectExtended (glyphs : List Glyph) : List String :=
  glyphs.filterMap extractExtended

/-- The `vvars` dict after the glyph loop. -/
def collectVVars (glyphs : List Glyph) : List (String × List String) :=
  glyphs.filterMap extractVVars

/-- The `vcomp` dict after the glyph loop. -/
def collectVComp (glyphs : List Glyph) :
    List (String × List (String × String)) :=
  glyphs.filterMap extractVComp

/-- The `hvars` dict after the glyph loop. -/
def collectHVars (glyphs : List Glyph) : List (String × List String) :=
  glyphs.filterMap extractHVars

/-- The `hcomp` dict after the glyph loop. -/
def collectHComp (glyphs : List Glyph) :
    List (String × List (String × String)) :=
  glyphs.filterMap extractHComp

/-- `fontTools.otlLib.builder.buildCoverage(glyphs, glyphMap)`: `None` when
the glyph set is empty (`if not glyphs: return None`), otherwise the glyph
names sorted by glyph id (`sorted(glyphs, key=glyphMap.__getitem__)`, a
stable sort; `glyphMap` is `{n: i for i, n in enumerate(font.glyphOrder)}`,
i.e. the index in the glyph order). -/
def buildCoverage (glyphs : List String) (glyphOrder : List String) :
    Option (List String) :=
  if glyphs.isEmpty then none
  else some (glyphs.insertionSort
    (fun a b => glyphOrder.indexOf a ≤ glyphOrder.indexOf b))

/-- Accessing `coverage.glyphs` raises `AttributeError` when
`buildCoverage` returned `None`. -/
def covGlyphs (c : Option (List String)) : Except String (List String) :=
  match c with
  | some l => Except.ok l
  | none => Except.error "AttributeError: NoneType object has no attribute glyphs"

/-- One `GlyphPartRecord` of a `GlyphAssembly`. -/
structure GlyphPartRecord where
  glyph : String
  StartConnectorLength : ℤ
  EndConnectorLength : ℤ
  FullAdvance : ℤ
  PartFlags : ℤ
deriving DecidableEq

/-- A `GlyphAssembly`: the italics-correction value record (its `.Value`)
plus the part records. -/
structure GlyphAssembly where
  ItalicsCorrectionValue : ℤ
  PartRecords : List GlyphPartRecord
deriving DecidableEq

/-- One `MathGlyphVariantRecord`. -/
structure MathGlyphVariantRecord where
  VariantGlyph : String
  AdvanceMeasurement : ℤ
deriving DecidableEq

/-- A `MathGlyphConstruction`: the variant records and the optional
assembly. -/
structure MathGlyphConstruction where
  MathGlyphVariantRecord : List MathGlyphVariantRecord
  GlyphAssembly : Option GlyphAssembly
deriving DecidableEq

/-- Python `str.split(sep)` for a one-character separator, over the char
list: splits at every occurrence, keeping empty pieces
(`"".split(",") == [""]`). -/
def splitOnChar (c : Char) : List Char → List (List Char)
  | [] => [[]]
  | a :: rest =>
    if a = c then [] :: splitOnChar c rest
    else
      match splitOnChar c rest with
      | [] => [[a]]
      | g :: gs => (a :: g) :: gs

/-- `comp[1].split(",")` as strings. -/
def pySplitComma (s : String) : List String :=
  (splitOnChar (Char.ofNat 44) s.toList).map (fun cs => ⟨cs⟩)

/-- The value of a decimal digit character. -/
def digitVal (c : Char) : Option ℕ :=
  if '0' ≤ c ∧ c ≤ '9' then some (c.toNat - '0'.toNat) else none

/-- An all-digit non-empty character list as a natural number. -/
def parseDigits (cs : List Char) : Option ℕ :=
  match cs with
  | [] => none
  | _ =>
    cs.foldl
      (fun acc c =>
        match acc, digitVal c with
        | some n, some d => some (10 * n + d)
        | _, _ => none)
      (some 0)

/-- Python `int(s)` on a decimal string with an optional sign (`none` models
the `ValueError` raised for anything else; surrounding whitespace, which
never occurs in the assembly tuples, is not accepted). -/
def pyStrToInt (s : String) : Option ℤ :=
  match s.toList with
  | '-' :: rest => (parseDigits rest).map (fun n => -(n : ℤ))
  | '+' :: rest => (parseDigits rest).map (fun n => (n : ℤ))
  | cs => (parseDigits cs).map (fun n => (n : ℤ))

/-- build.py lines 282-289 (identical at 313-320): one part record from a
`(component glyph name, "flags,start,end,advance")` tuple —
`f, s, e, a = [int(v) for v in comp[1].split(",")]`.  A field that does not
parse as an integer or a count other than four raises and aborts. -/
def buildPartRecord (comp : String × String) : Except String GlyphPartRecord :=
  match (pySplitComma comp.snd).mapM pyStrToInt with
  | none => Except.error "ValueError: invalid literal for int"
  | some [f, s, e, a] =>
    Except.ok { glyph := comp.fst, StartConnectorLength := s,
                EndConnectorLength := e, FullAdvance := a, PartFlags := f }
  | some _ => Except.error "ValueError: unpacking mismatch"

/-- The `for comp in vcomp[name]` loop appending part records in declaration
order. -/
def buildPartRecords (comps : List (String × String)) :
    Except String (List GlyphPartRecord) :=
  match comps with
  | [] => Except.ok []
  | c :: rest =>
    match buildPartRecord c with
    | Except.error e => Except.error e
    | Except.ok r =>
      match buildPartRecords rest with
      | Except.error e => Except.error e
      | Except.ok rs => Except.ok (r :: rs)

/-- build.py lines 277-289: the assembly with its italics correction value
record hardcoded to zero. -/
def buildGlyphAssembly (comps : List (String × String)) :
    Except String GlyphAssembly :=
  match buildPartRecords comps with
  | Except.error e => Except.error e
  | Except.ok parts =>
    Except.ok { ItalicsCorrectionValue := 0, PartRecords := parts }

/-- build.py lines 271-274: a vertical variant record,
`AdvanceMeasurement = int(bbox[-1] - bbox[1] + 1)` where `bbox[-1] = yMax`
and `bbox[1] = yMin`; an absent/empty variant glyph has `bbox = None` and
subscripting it raises. -/
def buildVariantRecordVert (bounds : String → Option BBox) (variant : String) :
    Except String MathGlyphVariantRecord :=
  match bounds variant with
  | none => Except.error "TypeError: NoneType is not subscriptable"
  | some bbox =>
    Except.ok { VariantGlyph := variant,
                AdvanceMeasurement := pyInt (bbox.yMax - bbox.yMin + 1) }

/-- build.py lines 301-305: a horizontal variant record,
`AdvanceMeasurement = int(bbox[-2] - bbox[0] + 1)` where `bbox[-2] = xMax`
and `bbox[0] = xMin`. -/
def buildVariantRecordHoriz (bounds : String → Option BBox) (variant : String) :
    Except String MathGlyphVariantRecord :=
  match bounds variant with
  | none => Except.error "TypeError: NoneType is not subscriptable"
  | some bbox =>
    Except.ok { VariantGlyph := variant,
                AdvanceMeasurement := pyInt (bbox.xMax - bbox.xMin + 1) }

/-- The `for variant in variants` loop of the vertical construction. -/
def buildVariantRecordsVert (bounds : String → Option BBox)
    (variants : List String) : Except String (List MathGlyphVariantRecord) :=
  match variants with
  | [] => Except.ok []
  | v :: rest =>
    match buildVariantRecordVert bounds v with
    | Except.error e => Except.error e
    | Except.ok r =>
      match buildVariantRecordsVert bounds rest with
      | Except.error e => Except.error e
      | Except.ok rs => Except.ok (r :: rs)

/-- The `for variant in variants` loop of the horizontal construction. -/
def buildVariantRecordsHoriz (bounds : String → Option BBox)
    (variants : List String) : Except String (List MathGlyphVariantRecord) :=
  match variants with
  | [] => Except.ok []
  | v :: rest =>
    match buildVariantRecordHoriz bounds v with
    | Except.error e => Except.error e
    | Except.ok r =>
      match buildVariantRecordsHoriz bounds rest with
      | Except.error e => Except.error e
      | Except.ok rs => Except.ok (r :: rs)

/-- build.py lines 264-290: one vertical `MathGlyphConstruction` for a
covered glyph: the variant records, plus the assembly iff `name in vcomp`. -/
def buildConstructionVert (bounds : String → Option BBox)
    (vcomp : List (String × List (String × String))) (name : String)
    (variants : List String) : Except String MathGlyphConstruction :=
  match buildVariantRecordsVert bounds variants with
  | Except.error e => Except.error e
  | Except.ok records =>
    match dictGet vcomp name with
    | some comps =>
      match buildGlyphAssembly comps with
      | Except.error e => Except.error e
      | Except.ok asm =>
        Except.ok { MathGlyphVariantRecord := records, GlyphAssembly := some asm }
    | none =>
      Except.ok { MathGlyphVariantRecord := records, GlyphAssembly := none }

/-- build.py lines 295-321: one horizontal `MathGlyphConstruction`. -/
def buildConstructionHoriz (bounds : String → Option BBox)
    (hcomp : List (String × List (String × String))) (name : String)
    (variants : List String) : Except String MathGlyphConstruction :=
  match buildVariantRecordsHoriz bounds variants with
  | Except.error e => Except.error e
  | Except.ok records =>
    match dictGet hcomp name with
    | some comps =>
      match buildGlyphAssembly comps with
      | Except.error e => Except.error e
      | Except.ok asm =>
        Except.ok { MathGlyphVariantRecord := records, GlyphAssembly := some asm }
    | none =>
      Except.ok { MathGlyphVariantRecord := records, GlyphAssembly := none }

/-- The `for name in coverage.glyphs` loop building the vertical
constructions (`variants = vvars[name]`). -/
def buildVertConstructions (bounds : String → Option BBox)
    (vvars : List (String × List String))
    (vcomp : List (String × List (String × String)))
    (names : List String) : Except String (List MathGlyphConstruction) :=
  match names with
  | [] => Except.ok []
  | n :: rest =>
    match buildConstructionVert bounds vcomp n ((dictGet vvars n).getD []) with
    | Except.error e => Except.error e
    | Except.ok c =>
      match buildVertConstructions bounds vvars vcomp rest with
      | Except.error e => Except.error e
      | Except.ok cs => Except.ok (c :: cs)

/-- The `for name in coverage.glyphs` loop building the horizontal
constructions. -/
def buildHorizConstructions (bounds : String → Option BBox)
    (hvars : List (String × List String))
    (hcomp : List (String × List (String × String)))
    (names : List String) : Except String (List MathGlyphConstruction) :=
  match names with
  | [] => Except.ok []
  | n :: rest =>
    match buildConstructionHoriz bounds hcomp n ((dictGet hvars n).getD []) with
    | Except.error e => Except.error e
    | Except.ok c =>
      match buildHorizConstructions bounds hvars hcomp rest with
      | Except.error e => Except.error e
      | Except.ok cs => Except.ok (c :: cs)

/-- The assembled MATH table object. -/
structure MATHTable where
  MathConstants : List (String × MathConstantValue)
  ItalicsCorrectionCoverage : List String
  ItalicsCorrection : List ℚ
  TopAccentCoverage : List String
  TopAccentAttachment : List ℚ
  ExtendedShapeCoverage : Option (List String)
  MinConnectorOverlap : ℚ
  VertGlyphCoverage : List String
  VertGlyphConstruction : List MathGlyphConstruction
  HorizGlyphCoverage : List String
  HorizGlyphConstruction : List MathGlyphConstruction
deriving DecidableEq

/-- build.py lines 195-321: assembling the MATH table from the constants
dict and the seven collections of the glyph loop.  The value arrays are
`[italic[n] for n in coverage.glyphs]` etc.; `MinConnectorOverlap` is the
dict access `constants["MinConnectorOverlap"]` (KeyError when absent).
`ExtendedShapeCoverage` is assigned without touching `.glyphs`, so it may be
`None`. -/
def buildMATHTable (glyphOrder : List String) (bounds : String → Option BBox)
    (constants : List (String × ℚ))
    (italic accent : List (String × ℚ)) (extended : List String)
    (vvars : List (String × List String))
    (vcomp : List (String × List (String × String)))
    (hvars : List (String × List String))
    (hcomp : List (String × List (String × String))) :
    Except String MATHTable := do
  let mathConstants := buildMathConstants constants
  let itcov ← covGlyphs (buildCoverage (italic.map Prod.fst) glyphOrder)
  let itarr := itcov.map (fun n => (dictGet italic n).getD 0)
  let accov ← covGlyphs (buildCoverage (accent.map Prod.fst) glyphOrder)
  let acarr := accov.map (fun n => (dictGet accent n).getD 0)
  let extcov := buildCoverage extended glyphOrder
  let mco ← match dictGet constants "MinConnectorOverlap" with
    | some v => Except.ok v
    | none => Except.error "KeyError: MinConnectorOverlap"
  let vcov ← covGlyphs (buildCoverage (vvars.map Prod.fst) glyphOrder)
  let vcons ← buildVertConstructions bounds vvars vcomp vcov
  let hcov ← covGlyphs (buildCoverage (hvars.map Prod.fst) glyphOrder)
  let hcons ← buildHorizConstructions bounds hvars hcomp hcov
  Except.ok
    { MathConstants := mathConstants
      ItalicsCorrectionCoverage := itcov
      ItalicsCorrection := itarr
      TopAccentCoverage := accov
      TopAccentAttachment := acarr
      ExtendedShapeCoverage := extcov
      MinConnectorOverlap := mco
      VertGlyphCoverage := vcov
      VertGlyphConstruction := vcons
      HorizGlyphCoverage := hcov
      HorizGlyphConstruction := hcons }

/-- build.py lines 193-325: `constants = font.lib.get(MATH_KEY)`; when the
key is absent or the dict is empty (`if constants:` falsy) the whole MATH
section is skipped (`Except.ok none`); otherwise the table is built and
attached (`Except.ok (some table)`), or the build raises. -/
def postProcessMATH (font : Font) : Except String (Option MATHTable) :=
  match font.libMath with
  | none => Except.ok none
  | some constants =>
    if constants.isEmpty then Except.ok none
    else
      (buildMATHTable font.glyphOrder font.bounds constants
        (collectItalic font.glyphs) (collectAccent font.glyphs)
        (collectExtended font.glyphs) (collectVVars font.glyphs)
        (collectVComp font.glyphs) (collectHVars font.glyphs)
        (collectHComp font.glyphs)).map some

/-! ## Claim theorems -/

/-- The width operand of `getCharStringForGlyph` is always
`glyph.width - nominalWidthX`, for every input. -/
theorem charstringProgram_always_width (w dw nw : ℚ) (hinted : List ℚ) :
    charstringProgram w dw nw hinted = (w - nw) :: hinted := by
  unfold charstringProgram
  rw [computeWidth_eq_numV]

/-- C1: the claim says a glyph whose advance width equals `defaultWidthX`
gets no leading width operand.  The code (build.py line 82) uses the
`cond and None or expr` idiom, whose `None` arm is falsy, so the width is
always `glyph.width - nominalWidthX` and is always prepended: with
advance 500, `defaultWidthX = 500`, `nominalWidthX = 400` and a hinted
program `[1, 2]`, the charstring begins with the operand 100 even though
the advance equals `defaultWidthX`. -/
theorem charstring_width_bug :
    charstringProgram 500 500 400 [1, 2] = [100, 1, 2] ∧
    computeWidth 500 500 400 ≠ PyVal.noneV := by
  constructor
  · rw [charstringProgram_always_width]
    norm_num
  · rw [computeWidth_eq_numV]
    simp

/-- C5: the width-bucket function of `_make_over_under_line` is
`max(round(w / 50) * 50, 50)`; it is monotone, and at least 50 for every
positive width (widths below the floor are clamped, never dropped). -/
theorem bucket_spec :
    (∀ w : ℚ, bucket w = max (pyRound (w / 50) * 50) 50) ∧
    (∀ w₁ w₂ : ℚ, w₁ ≤ w₂ → bucket w₁ ≤ bucket w₂) ∧
    (∀ w : ℚ, 0 < w → 50 ≤ bucket w) :=
  ⟨fun _ => rfl, fun _ _ h => bucket_mono h, fun w _ => bucket_ge w⟩

theorem bucket_spec_witness : bucket 480 ≤ bucket 510 ∧ 50 ≤ bucket 30 :=
  ⟨bucket_spec.2.1 480 510 (by norm_num), bucket_spec.2.2 30 (by norm_num)⟩

theorem gdef_untouched (l : List Glyph) (cd : String → ℤ) (k : String)
    (h : ¬ ∃ g ∈ l, g.glyphclass = some "mark" ∧ g.name = k) :
    postProcessGDEF l cd k = cd k := by
  induction l generalizing cd with
  | nil => rfl
  | cons a t ih =>
    have ht : ¬ ∃ g ∈ t, g.glyphclass = some "mark" ∧ g.name = k :=
      fun ⟨g, hg, hp⟩ => h ⟨g, List.mem_cons_of_mem _ hg, hp⟩
    show postProcessGDEF t
      (if a.glyphclass = some "mark" then Function.update cd a.name 3 else cd) k = cd k
    by_cases hm : a.glyphclass = some "mark"
    · have hn : k ≠ a.name :=
        fun e => h ⟨a, List.mem_cons_self a t, hm, e.symm⟩
      rw [if_pos hm, ih _ ht, Function.update_noteq hn]
    · rw [if_neg hm]
      exact ih _ ht

theorem gdef_of_exists (l : List Glyph) (cd : String → ℤ) (k : String)
    (h : ∃ g ∈ l, g.glyphclass = some "mark" ∧ g.name = k) :
    postProcessGDEF l cd k = 3 := by
  induction l generalizing cd with
  | nil => exact absurd h (by simp)
  | cons a t ih =>
    show postProcessGDEF t
      (if a.glyphclass = some "mark" then Function.update cd a.name 3 else cd) k = 3
    by_cases hex : ∃ g ∈ t, g.glyphclass = some "mark" ∧ g.name = k
    · exact ih _ hex
    · rcases h with ⟨g, hg, hmark, hname⟩
      rcases List.mem_cons.mp hg with rfl | hgt
      · rw [if_pos hmark, gdef_untouched t _ k hex, ← hname,
          Function.update_same]
      · exact absurd ⟨g, hgt, hmark, hname⟩ hex

/-- C7: after the finalizer, every glyph classified `"mark"` has GDEF class
3, whatever class the initial compiled table assigned. -/
theorem gdef_mark_class (glyphs : List Glyph) (classdef : String → ℤ)
    (g : Glyph) (hg : g ∈ glyphs) (hm : g.glyphclass = some "mark") :
    postProcessGDEF glyphs classdef g.name = 3 :=
  gdef_of_exists glyphs classdef g.name ⟨g, hg, hm, rfl⟩

theorem gdef_mark_class_witness :
    postProcessGDEF [⟨"dotaccent", 0, some "mark", none, []⟩]
      (fun _ => 1) "dotaccent" = 3 :=
  gdef_mark_class [⟨"dotaccent", 0, some "mark", none, []⟩] (fun _ => 1)
    ⟨"dotaccent", 0, some "mark", none, []⟩ (by simp) rfl

/-- C6: when the non-mark positive-width glyphs fall into exactly one
distinct width bucket, `_make_over_under_line` returns before drawing any
variant glyph or appending any feature text: the font is unchanged. -/
theorem overUnderLine_single_bucket (font : Font)
    (h : (collectWidths font.glyphs).length = 1) :
    makeOverUnderLine font = some font := by
  unfold makeOverUnderLine
  by_cases hb : (["uni0305", "uni0332"].filter
      (fun n => font.glyphs.any (fun g => g.name == n))).isEmpty <;>
    simp [hb, h]

/-- A two-glyph font whose only bucketed glyph is `a` (width 100): one
bucket. -/
def exFontC6 : Font :=
  { glyphs := [⟨"uni0305", 0, some "mark", none, []⟩,
               ⟨"a", 100, none, none, []⟩]
    glyphOrder := ["uni0305", "a"]
    bounds := fun _ => none
    libMath := none
    features := "" }

theorem overUnderLine_single_bucket_witness :
    makeOverUnderLine exFontC6 = some exFontC6 :=
  overUnderLine_single_bucket exFontC6 (by
    norm_num [exFontC6, collectWidths, List.foldl_cons, List.foldl_nil,
      addWidth]
    simp)

/-- C8 counterexample: the claim includes `MinConnectorOverlap` among the
fields copied as raw scalars into the constants block, but the code skips it
entirely (`continue`, build.py lines 204-205): from the constants dict
`{"MinConnectorOverlap": 54}` nothing at all is copied. -/
theorem mathConstants_mco_counterexample :
    buildMathConstants [("MinConnectorOverlap", 54)] = [] ∧
    ("MinConnectorOverlap", MathConstantValue.raw 54) ∉
      buildMathConstants [("MinConnectorOverlap", 54)] := by
  have h1 : buildMathConstants [("MinConnectorOverlap", (54 : ℚ))] = [] := by
    decide
  refine ⟨h1, ?_⟩
  intro hmem
  rw [h1] at hmem
  exact List.not_mem_nil _ hmem

/-- C8 amended: every constant other than `MinConnectorOverlap` is copied
into the constants block — the five names of the exclusion tuple as raw
scalars, all others wrapped in a value record — while `MinConnectorOverlap`
is never copied there (it is stored as `MathVariants.MinConnectorOverlap`
instead). -/
theorem mathConstants_amended (d : List (String × ℚ)) (c : String) (v : ℚ)
    (hcv : (c, v) ∈ d) :
    (c = "MinConnectorOverlap" → ∀ x, (c, x) ∉ buildMathConstants d) ∧
    (c ≠ "MinConnectorOverlap" → c ∈ rawConstantNames →
      (c, MathConstantValue.raw v) ∈ buildMathConstants d) ∧
    (c ≠ "MinConnectorOverlap" → c ∉ rawConstantNames →
      (c, MathConstantValue.record v) ∈ buildMathConstants d) := by
  refine ⟨?_, ?_, ?_⟩
  · rintro rfl x hx
    unfold buildMathConstants at hx
    rw [List.mem_filterMap] at hx
    obtain ⟨cv, _, hf⟩ := hx
    by_cases h1 : cv.fst = "MinConnectorOverlap"
    · simp [h1] at hf
    · by_cases h2 : cv.fst ∈ rawConstantNames <;> simp [h1, h2] at hf
  · intro hne hmem
    unfold buildMathConstants
    rw [List.mem_filterMap]
    exact ⟨(c, v), hcv, by simp [hne, hmem]⟩
  · intro hne hmem
    unfold buildMathConstants
    rw [List.mem_filterMap]
    exact ⟨(c, v), hcv, by simp [hne, hmem]⟩

theorem mathConstants_amended_witness :
    (∀ x, ("MinConnectorOverlap", x) ∉
      buildMathConstants [("MinConnectorOverlap", 54),
        ("ScriptPercentScaleDown", 80), ("SpaceAfterScript", 40)]) ∧
    ("ScriptPercentScaleDown", MathConstantValue.raw 80) ∈
      buildMathConstants [("MinConnectorOverlap", 54),
        ("ScriptPercentScaleDown", 80), ("SpaceAfterScript", 40)] ∧
    ("SpaceAfterScript", MathConstantValue.record 40) ∈
      buildMathConstants [("MinConnectorOverlap", 54),
        ("ScriptPercentScaleDown", 80), ("SpaceAfterScript", 40)] :=
  ⟨(mathConstants_amended _ "MinConnectorOverlap" 54 (by decide)).1 rfl,
   (mathConstants_amended _ "ScriptPercentScaleDown" 80 (by decide)).2.1
     (by decide) (by decide),
   (mathConstants_amended _ "SpaceAfterScript" 40 (by decide)).2.2
     (by decide) (by decide)⟩

theorem buildVariantRecordsVert_ok {bounds : String → Option BBox} :
    ∀ {variants : List String} {rs : List MathGlyphVariantRecord},
      buildVariantRecordsVert bounds variants = Except.ok rs →
      ∀ r ∈ rs, ∃ bbox, bounds r.VariantGlyph = some bbox ∧
        r.AdvanceMeasurement = pyInt (bbox.yMax - bbox.yMin + 1) := by
  intro variants
  induction variants with
  | nil =>
    intro rs h r hr
    simp only [buildVariantRecordsVert] at h
    cases h
    exact absurd hr (List.not_mem_nil r)
  | cons v rest ih =>
    intro rs h r hr
    simp only [buildVariantRecordsVert] at h
    cases hv : buildVariantRecordVert bounds v with
    | error e => rw [hv] at h; exact Except.noConfusion h
    | ok r0 =>
      rw [hv] at h
      cases hrest : buildVariantRecordsVert bounds rest with
      | error e => rw [hrest] at h; exact Except.noConfusion h
      | ok rs0 =>
        rw [hrest] at h
        cases h
        rcases List.mem_cons.mp hr with rfl | hmem
        · unfold buildVariantRecordVert at hv
          cases hb : bounds v with
          | none => rw [hb] at hv; exact Except.noConfusion hv
          | some bbox =>
            rw [hb] at hv
            cases hv
            exact ⟨bbox, hb, rfl⟩
        · exact ih hrest r hmem

theorem buildVariantRecordsHoriz_ok {bounds : String → Option BBox} :
    ∀ {variants : List String} {rs : List MathGlyphVariantRecord},
      buildVariantRecordsHoriz bounds variants = Except.ok rs →
      ∀ r ∈ rs, ∃ bbox, bounds r.VariantGlyph = some bbox ∧
        r.AdvanceMeasurement = pyInt (bbox.xMax - bbox.xMin + 1) := by
  intro variants
  induction variants with
  | nil =>
    intro rs h r hr
    simp only [buildVariantRecordsHoriz] at h
    cases h
    exact absurd hr (List.not_mem_nil r)
  | cons v rest ih =>
    intro rs h r hr
    simp only [buildVariantRecordsHoriz] at h
    cases hv : buildVariantRecordHoriz bounds v with
    | error e => rw [hv] at h; exact Except.noConfusion h
    | ok r0 =>
      rw [hv] at h
      cases hrest : buildVariantRecordsHoriz bounds rest with
      | error e => rw [hrest] at h; exact Except.noConfusion h
      | ok rs0 =>
        rw [hrest] at h
        cases h
        rcases List.mem_cons.mp hr with rfl | hmem
        · unfold buildVariantRecordHoriz at hv
          cases hb : bounds v with
          | none => rw [hb] at hv; exact Except.noConfusion hv
          | some bbox =>
            rw [hb] at hv
            cases hv
            exact ⟨bbox, hb, rfl⟩
        · exact ih hrest r hmem

theorem constructionVert_records {bounds : String → Option BBox}
    {vcomp : List (String × List (String × String))} {name : String}
    {variants : List String} {c : MathGlyphConstruction}
    (h : buildConstructionVert bounds vcomp name variants = Except.ok c) :
    buildVariantRecordsVert bounds variants =
      Except.ok c.MathGlyphVariantRecord := by
  unfold buildConstructionVert at h
  split at h
  · exact Except.noConfusion h
  · rename_i records hrec
    split at h
    · split at h
      · exact Except.noConfusion h
      · cases h
        exact hrec
    · cases h
      exact hrec

theorem constructionHoriz_records {bounds : String → Option BBox}
    {hcomp : List (String × List (String × String))} {name : String}
    {variants : List String} {c : MathGlyphConstruction}
    (h : buildConstructionHoriz bounds hcomp name variants = Except.ok c) :
    buildVariantRecordsHoriz bounds variants =
      Except.ok c.MathGlyphVariantRecord := by
  unfold buildConstructionHoriz at h
  split at h
  · exact Except.noConfusion h
  · rename_i records hrec
    split at h
    · split at h
      · exact Except.noConfusion h
      · cases h
        exact hrec
    · cases h
      exact hrec

/-- C2 counterexample: the claim computes the advance as
`round(bbox.yMax - bbox.yMin) + 1`, but the code computes
`int(bbox[-1] - bbox[1] + 1)` (truncation): for a variant glyph with bounds
`(0, 0, 0, 2.7)` the code stores `int(3.7) = 3`, while
`round(2.7) + 1 = 4`. -/
theorem variantAdvance_round_counterexample :
    buildVariantRecordVert (fun _ => some ⟨0, 0, 0, 27/10⟩) "b" =
      Except.ok ⟨"b", 3⟩ ∧
    pyRound (((27 : ℚ)/10) - 0) + 1 ≠ 3 := by
  have hfl : ⌊(27/10 : ℚ) - 0 + 1⌋ = 3 := by
    rw [Int.floor_eq_iff]
    norm_num
  have hfl2 : ⌊(27/10 : ℚ) - 0⌋ = 2 := by
    rw [Int.floor_eq_iff]
    norm_num
  constructor
  · have hfl37 : ⌊(37/10 : ℚ)⌋ = 3 := by
      rw [Int.floor_eq_iff]
      norm_num
    unfold buildVariantRecordVert pyInt
    norm_num [hfl37]
  · unfold pyRound
    simp only [hfl2]
    rw [if_neg (by norm_num), if_pos (by norm_num)]
    norm_num

/-- C2 amended: in every successfully built glyph construction, each variant
record's advance measurement is `int(yMax - yMin + 1)` of that variant's
bounding box on the vertical axis and `int(xMax - xMin + 1)` on the
horizontal axis, where `int` is Python truncation toward zero (this agrees
with `round(yMax - yMin) + 1` whenever the bounds difference is an
integer). -/
theorem variantAdvance_amended :
    (∀ (bounds : String → Option BBox) vcomp name variants c,
      buildConstructionVert bounds vcomp name variants = Except.ok c →
      ∀ r ∈ c.MathGlyphVariantRecord, ∃ bbox,
        bounds r.VariantGlyph = some bbox ∧
        r.AdvanceMeasurement = pyInt (bbox.yMax - bbox.yMin + 1)) ∧
    (∀ (bounds : String → Option BBox) hcomp name variants c,
      buildConstructionHoriz bounds hcomp name variants = Except.ok c →
      ∀ r ∈ c.MathGlyphVariantRecord, ∃ bbox,
        bounds r.VariantGlyph = some bbox ∧
        r.AdvanceMeasurement = pyInt (bbox.xMax - bbox.xMin + 1)) :=
  ⟨fun _ _ _ _ _ h => buildVariantRecordsVert_ok (constructionVert_records h),
   fun _ _ _ _ _ h => buildVariantRecordsHoriz_ok (constructionHoriz_records h)⟩

theorem variantAdvance_amended_witness :
    ∀ r ∈ (MathGlyphConstruction.mk [⟨"v", 8⟩] none).MathGlyphVariantRecord,
      ∃ bbox, (fun _ => some (BBox.mk 0 0 0 7)) r.VariantGlyph = some bbox ∧
        r.AdvanceMeasurement = pyInt (bbox.yMax - bbox.yMin + 1) :=
  variantAdvance_amended.1 (fun _ => some ⟨0, 0, 0, 7⟩) [] "g" ["v"]
    ⟨[⟨"v", 8⟩], none⟩
    (by
      have hfl8 : ⌊(8 : ℚ)⌋ = 8 := by
        rw [Int.floor_eq_iff]
        norm_num
      unfold buildConstructionVert buildVariantRecordsVert
        buildVariantRecordVert pyInt dictGet
      norm_num [hfl8]
      rfl)

theorem buildPartRecord_ok {comp : String × String} {r : GlyphPartRecord}
    (h : buildPartRecord comp = Except.ok r) :
    ∃ f s e a, ((pySplitComma comp.snd).mapM pyStrToInt =
      some [f, s, e, a]) ∧ r = ⟨comp.fst, s, e, a, f⟩ := by
  unfold buildPartRecord at h
  cases hm : (pySplitComma comp.snd).mapM pyStrToInt with
  | none => rw [hm] at h; exact Except.noConfusion h
  | some vals =>
    rw [hm] at h
    rcases vals with _ | ⟨f, _ | ⟨s, _ | ⟨e, _ | ⟨a, _ | ⟨x, xs⟩⟩⟩⟩⟩
    · exact Except.noConfusion h
    · exact Except.noConfusion h
    · exact Except.noConfusion h
    · exact Except.noConfusion h
    · cases h
      exact ⟨f, s, e, a, rfl, rfl⟩
    · exact Except.noConfusion h

theorem buildPartRecords_ok :
    ∀ {comps : List (String × String)} {parts : List GlyphPartRecord},
      buildPartRecords comps = Except.ok parts →
      parts.length = comps.length ∧
      ∀ i (hi : i < comps.length) (hp : i < parts.length),
        ∃ f s e a, ((pySplitComma (comps.get ⟨i, hi⟩).snd).mapM pyStrToInt =
          some [f, s, e, a]) ∧
          parts.get ⟨i, hp⟩ = ⟨(comps.get ⟨i, hi⟩).fst, s, e, a, f⟩ := by
  intro comps
  induction comps with
  | nil =>
    intro parts h
    simp only [buildPartRecords] at h
    cases h
    exact ⟨rfl, fun i hi => absurd hi (by simp)⟩
  | cons cp rest ih =>
    intro parts h
    simp only [buildPartRecords] at h
    cases hpr : buildPartRecord cp with
    | error e => rw [hpr] at h; exact Except.noConfusion h
    | ok r =>
      rw [hpr] at h
      cases hrest : buildPartRecords rest with
      | error e => rw [hrest] at h; exact Except.noConfusion h
      | ok rs =>
        rw [hrest] at h
        cases h
        obtain ⟨hlen, hpt⟩ := ih hrest
        refine ⟨by simp [hlen], ?_⟩
        intro i hi hp
        cases i with
        | zero =>
          obtain ⟨f, s, e, a, hm, hr⟩ := buildPartRecord_ok hpr
          exact ⟨f, s, e, a, hm, hr⟩
        | succ j =>
          exact hpt j (by simpa using hi) (by simpa using hp)

theorem buildGlyphAssembly_ok {comps : List (String × String)}
    {asm : GlyphAssembly} (h : buildGlyphAssembly comps = Except.ok asm) :
    asm.ItalicsCorrectionValue = 0 ∧
    buildPartRecords comps = Except.ok asm.PartRecords := by
  unfold buildGlyphAssembly at h
  cases hp : buildPartRecords comps with
  | error e => rw [hp] at h; exact Except.noConfusion h
  | ok parts => rw [hp] at h; cases h; exact ⟨rfl, rfl⟩

/-- The property C9 asserts of an emitted construction with assembly data:
the assembly is present, its italics correction value record is zero, and it
has one part record per declared tuple, in declaration order, the fields
taken from the comma-separated tuple in the order
`(flags, startConnectorLength, endConnectorLength, fullAdvance)` and tagged
with the component glyph name. -/
def assemblySpec (comps : List (String × String))
    (c : MathGlyphConstruction) : Prop :=
  ∃ asm, c.GlyphAssembly = some asm ∧
    asm.ItalicsCorrectionValue = 0 ∧
    asm.PartRecords.length = comps.length ∧
    ∀ i (hi : i < comps.length) (hp : i < asm.PartRecords.length),
      ∃ f s e a,
        ((pySplitComma (comps.get ⟨i, hi⟩).snd).mapM pyStrToInt =
          some [f, s, e, a]) ∧
        asm.PartRecords.get ⟨i, hp⟩ = ⟨(comps.get ⟨i, hi⟩).fst, s, e, a, f⟩

theorem constructionVert_assembly {bounds : String → Option BBox}
    {vcomp : List (String × List (String × String))} {name : String}
    {variants : List String} {comps : List (String × String)}
    {c : MathGlyphConstruction}
    (hcomps : dictGet vcomp name = some comps)
    (h : buildConstructionVert bounds vcomp name variants = Except.ok c) :
    ∃ asm, c.GlyphAssembly = some asm ∧
      buildGlyphAssembly comps = Except.ok asm := by
  unfold buildConstructionVert at h
  split at h
  · exact Except.noConfusion h
  · rename_i records hrec
    split at h
    · rename_i comps2 hd
      have hc2 : comps2 = comps := by
        rw [hcomps] at hd
        exact (Option.some.injEq _ _).mp hd.symm
      subst hc2
      split at h
      · exact Except.noConfusion h
      · rename_i asm hasm
        cases h
        exact ⟨asm, rfl, hasm⟩
    · rename_i hd
      rw [hcomps] at hd
      exact Option.noConfusion hd

theorem constructionHoriz_assembly {bounds : String → Option BBox}
    {hcomp : List (String × List (String × String))} {name : String}
    {variants : List String} {comps : List (String × String)}
    {c : MathGlyphConstruction}
    (hcomps : dictGet hcomp name = some comps)
    (h : buildConstructionHoriz bounds hcomp name variants = Except.ok c) :
    ∃ asm, c.GlyphAssembly = some asm ∧
      buildGlyphAssembly comps = Except.ok asm := by
  unfold buildConstructionHoriz at h
  split at h
  · exact Except.noConfusion h
  · rename_i records hrec
    split at h
    · rename_i comps2 hd
      have hc2 : comps2 = comps := by
        rw [hcomps] at hd
        exact (Option.some.injEq _ _).mp hd.symm
      subst hc2
      split at h
      · exact Except.noConfusion h
      · rename_i asm hasm
        cases h
        exact ⟨asm, rfl, hasm⟩
    · rename_i hd
      rw [hcomps] at hd
      exact Option.noConfusion hd

/-- C9: every construction built for a glyph with assembly-part data carries
an assembly satisfying `assemblySpec`: zero italics-correction value record,
one part record per declared tuple in declaration order, fields in the order
`(flags, start, end, advance)`, tagged with the component glyph name — on
both axes. -/
theorem assembly_parts_spec :
    (∀ (bounds : String → Option BBox) vcomp name variants comps c,
      dictGet vcomp name = some comps →
      buildConstructionVert bounds vcomp name variants = Except.ok c →
      assemblySpec comps c) ∧
    (∀ (bounds : String → Option BBox) hcomp name variants comps c,
      dictGet hcomp name = some comps →
      buildConstructionHoriz bounds hcomp name variants = Except.ok c →
      assemblySpec comps c) := by
  constructor
  · intro bounds vcomp name variants comps c hcomps h
    obtain ⟨asm, hca, hasm⟩ := constructionVert_assembly hcomps h
    obtain ⟨hzero, hparts⟩ := buildGlyphAssembly_ok hasm
    obtain ⟨hlen, hpt⟩ := buildPartRecords_ok hparts
    exact ⟨asm, hca, hzero, hlen, hpt⟩
  · intro bounds hcomp name variants comps c hcomps h
    obtain ⟨asm, hca, hasm⟩ := constructionHoriz_assembly hcomps h
    obtain ⟨hzero, hparts⟩ := buildGlyphAssembly_ok hasm
    obtain ⟨hlen, hpt⟩ := buildPartRecords_ok hparts
    exact ⟨asm, hca, hzero, hlen, hpt⟩

theorem assembly_parts_spec_witness :
    assemblySpec [("p", "1,2,3,4")]
      ⟨[], some ⟨0, [⟨"p", 2, 3, 4, 1⟩]⟩⟩ :=
  assembly_parts_spec.1 (fun _ => none) [("g", [("p", "1,2,3,4")])] "g" []
    [("p", "1,2,3,4")] ⟨[], some ⟨0, [⟨"p", 2, 3, 4, 1⟩]⟩⟩
    (by decide) (by rfl)

/-- A font with font-level math constants but whose only glyph declares just
a top-accent value (mathematical metadata exists). -/
def exFontC3 : Font :=
  { glyphs := [⟨"x", 0, none,
      some ⟨none, none, some 10, none, none, none, none⟩, []⟩]
    glyphOrder := ["x"]
    bounds := fun _ => none
    libMath := some [("MinConnectorOverlap", 54)]
    features := "" }

/-- C3 counterexample: the claim says the MATH table is attached iff
mathematical metadata exists.  In `exFontC3` a glyph declares mathematical
metadata (and the font-level constants dict is non-empty), yet no table is
attached: the attachment is guarded only by `font.lib.get(MATH_KEY)`
(build.py line 193-194), and the build then crashes because no glyph has an
italic correction, so `buildCoverage` returns `None` and the
`[italic[n] for n in coverage.glyphs]` comprehension raises. -/
theorem math_attach_counterexample :
    (∃ g ∈ exFontC3.glyphs, g.math.isSome) ∧
    postProcessMATH exFontC3 =
      Except.error "AttributeError: NoneType object has no attribute glyphs" := by
  constructor
  · exact ⟨⟨"x", 0, none, some ⟨none, none, some 10, none, none, none, none⟩,
      []⟩, by simp [exFontC3], rfl⟩
  · rfl

/-- C3 amended: the MATH section is skipped — the compile continues with no
MATH table attached — exactly when the font-level math constants dictionary
is absent or empty; when constants are present the builder runs and either
attaches a table or aborts the compile with an exception (so the glyph-level
metadata plays no role in the skip decision). -/
theorem math_attach_amended (font : Font) :
    postProcessMATH font = Except.ok none ↔
      (font.libMath = none ∨ font.libMath = some []) := by
  unfold postProcessMATH
  cases hm : font.libMath with
  | none => simp
  | some constants =>
    cases constants with
    | nil => simp
    | cons c rest =>
      cases hb : buildMATHTable font.glyphOrder font.bounds (c :: rest)
          (collectItalic font.glyphs) (collectAccent font.glyphs)
          (collectExtended font.glyphs) (collectVVars font.glyphs)
          (collectVComp font.glyphs) (collectHVars font.glyphs)
          (collectHComp font.glyphs) with
      | error e => simp [hb, Except.map]
      | ok t => simp [hb, Except.map]

/-! ## Machinery for C10 (composition without variants) and C4 -/

/-- The guarded metadata read all extractors share: `if math:` then a field
read. -/
def guardRead {β : Type _} (m : MathDict) (R : MathDict → Option β) :
    Option β :=
  match (if m.isEmpty then none else some m : Option MathDict) with
  | none => none
  | some m' => R m'

theorem guardRead_congr {β : Type _} (m0 m1 : MathDict)
    (R : MathDict → Option β) (hR : R m1 = R m0)
    (h0 : m0.isEmpty = true → R m0 = none)
    (h1 : m1.isEmpty = true → R m1 = none) :
    guardRead m1 R = guardRead m0 R := by
  unfold guardRead
  by_cases c1 : m1.isEmpty = true <;> by_cases c0 : m0.isEmpty = true
  · simp [c1, c0]
  · simp [c1, c0]
    exact (hR ▸ h1 c1).symm
  · simp [c1, c0]
    rw [hR]
    exact h0 c0
  · simp [c1, c0]
    exact hR

theorem isEmpty_fields {m : MathDict} (h : m.isEmpty = true) :
    m.IsExtendedShape = none ∧ m.ItalicCorrection = none ∧
    m.TopAccentHorizontal = none ∧ m.GlyphVariantsVertical = none ∧
    m.GlyphCompositionVertical = none ∧ m.GlyphVariantsHorizontal = none ∧
    m.GlyphCompositionHorizontal = none := by
  unfold MathDict.isEmpty at h
  simp only [Bool.and_eq_true, Option.isNone_iff_eq_none] at h
  refine ⟨by tauto, by tauto, by tauto, by tauto, by tauto, by tauto, by tauto⟩

theorem extractItalic_eq (g : Glyph) (m : MathDict) (hm : g.math = some m) :
    extractItalic g =
      guardRead m (fun m' => m'.ItalicCorrection.map (fun v => (g.name, v))) := by
  unfold extractItalic glyphMath guardRead
  rw [hm]

theorem extractAccent_eq (g : Glyph) (m : MathDict) (hm : g.math = some m) :
    extractAccent g =
      guardRead m (fun m' => m'.TopAccentHorizontal.map (fun v => (g.name, v))) := by
  unfold extractAccent glyphMath guardRead
  rw [hm]

theorem extractExtended_eq (g : Glyph) (m : MathDict) (hm : g.math = some m) :
    extractExtended g =
      guardRead m (fun m' =>
        if m'.IsExtendedShape.isSome then some g.name else none) := by
  unfold extractExtended glyphMath guardRead
  rw [hm]

theorem extractVVars_eq (g : Glyph) (m : MathDict) (hm : g.math = some m) :
    extractVVars g =
      guardRead m (fun m' =>
        m'.GlyphVariantsVertical.map (fun vs => (g.name, vs))) := by
  unfold extractVVars glyphMath guardRead
  rw [hm]

theorem extractVComp_eq (g : Glyph) (m : MathDict) (hm : g.math = some m) :
    extractVComp g =
      guardRead m (fun m' =>
        match m'.GlyphVariantsVertical with
        | none => none
        | some _ => m'.GlyphCompositionVertical.map (fun c => (g.name, c))) := by
  unfold extractVComp glyphMath guardRead
  rw [hm]

theorem extractHVars_eq (g : Glyph) (m : MathDict) (hm : g.math = some m) :
    extractHVars g =
      guardRead m (fun m' =>
        m'.GlyphVariantsHorizontal.map (fun vs => (g.name, vs))) := by
  unfold extractHVars glyphMath guardRead
  rw [hm]

theorem extractHComp_eq (g : Glyph) (m : MathDict) (hm : g.math = some m) :
    extractHComp g =
      guardRead m (fun m' =>
        match m'.GlyphVariantsHorizontal with
        | none => none
        | some _ => m'.GlyphCompositionHorizontal.map (fun c => (g.name, c))) := by
  unfold extractHComp glyphMath guardRead
  rw [hm]

/-- Erase `GlyphCompositionVertical` from the glyph named `n`. -/
def eraseVCompGlyph (n : String) (g : Glyph) : Glyph :=
  if g.name = n then
    { g with math := (g.math.map
        (fun m => { m with GlyphCompositionVertical := none })) }
  else g

/-- Erase `GlyphCompositionHorizontal` from the glyph named `n`. -/
def eraseHCompGlyph (n : String) (g : Glyph) : Glyph :=
  if g.name = n then
    { g with math := (g.math.map
        (fun m => { m with GlyphCompositionHorizontal := none })) }
  else g

/-- The font with the vertical composition metadata of glyph `n` removed. -/
def Font.eraseVComp (font : Font) (n : String) : Font :=
  { font with glyphs := font.glyphs.map (eraseVCompGlyph n) }

/-- The font with the horizontal composition metadata of glyph `n`
removed. -/
def Font.eraseHComp (font : Font) (n : String) : Font :=
  { font with glyphs := font.glyphs.map (eraseHCompGlyph n) }

theorem eraseVCompGlyph_fields (n : String) (g : Glyph) (m : MathDict)
    (hn : g.name = n) (hm : g.math = some m) :
    (eraseVCompGlyph n g).math =
      some { m with GlyphCompositionVertical := none } ∧
    (eraseVCompGlyph n g).name = g.name := by
  unfold eraseVCompGlyph
  rw [if_pos hn, hm]
  exact ⟨rfl, rfl⟩

theorem eraseHCompGlyph_fields (n : String) (g : Glyph) (m : MathDict)
    (hn : g.name = n) (hm : g.math = some m) :
    (eraseHCompGlyph n g).math =
      some { m with GlyphCompositionHorizontal := none } ∧
    (eraseHCompGlyph n g).name = g.name := by
  unfold eraseHCompGlyph
  rw [if_pos hn, hm]
  exact ⟨rfl, rfl⟩

theorem extractItalic_eraseV (n : String) (g : Glyph)
    (hg : g.name = n → ∃ m, g.math = some m ∧
      m.GlyphVariantsVertical = none) :
    extractItalic (eraseVCompGlyph n g) = extractItalic g := by
  by_cases hn : g.name = n
  · obtain ⟨m, hm, hvv⟩ := hg hn
    obtain ⟨hm1, hname⟩ := eraseVCompGlyph_fields n g m hn hm
    rw [extractItalic_eq _ _ hm1, extractItalic_eq _ _ hm, hname]
    apply guardRead_congr
    · rfl
    · intro h
      simp [show m.ItalicCorrection = none from (isEmpty_fields h).2.1]
    · intro h
      simp [show m.ItalicCorrection = none from (isEmpty_fields h).2.1]
  · unfold eraseVCompGlyph
    rw [if_neg hn]

theorem extractAccent_eraseV (n : String) (g : Glyph)
    (hg : g.name = n → ∃ m, g.math = some m ∧
      m.GlyphVariantsVertical = none) :
    extractAccent (eraseVCompGlyph n g) = extractAccent g := by
  by_cases hn : g.name = n
  · obtain ⟨m, hm, hvv⟩ := hg hn
    obtain ⟨hm1, hname⟩ := eraseVCompGlyph_fields n g m hn hm
    rw [extractAccent_eq _ _ hm1, extractAccent_eq _ _ hm, hname]
    apply guardRead_congr
    · rfl
    · intro h
      simp [show m.TopAccentHorizontal = none from (isEmpty_fields h).2.2.1]
    · intro h
      simp [show m.TopAccentHorizontal = none from (isEmpty_fields h).2.2.1]
  · unfold eraseVCompGlyph
    rw [if_neg hn]

theorem extractExtended_eraseV (n : String) (g : Glyph)
    (hg : g.name = n → ∃ m, g.math = some m ∧
      m.GlyphVariantsVertical = none) :
    extractExtended (eraseVCompGlyph n g) = extractExtended g := by
  by_cases hn : g.name = n
  · obtain ⟨m, hm, hvv⟩ := hg hn
    obtain ⟨hm1, hname⟩ := eraseVCompGlyph_fields n g m hn hm
    rw [extractExtended_eq _ _ hm1, extractExtended_eq _ _ hm, hname]
    apply guardRead_congr
    · rfl
    · intro h
      simp [show m.IsExtendedShape = none from (isEmpty_fields h).1]
    · intro h
      simp [show m.IsExtendedShape = none from (isEmpty_fields h).1]
  · unfold eraseVCompGlyph
    rw [if_neg hn]

theorem extractVVars_eraseV (n : String) (g : Glyph)
    (hg : g.name = n → ∃ m, g.math = some m ∧
      m.GlyphVariantsVertical = none) :
    extractVVars (eraseVCompGlyph n g) = extractVVars g := by
  by_cases hn : g.name = n
  · obtain ⟨m, hm, hvv⟩ := hg hn
    obtain ⟨hm1, hname⟩ := eraseVCompGlyph_fields n g m hn hm
    rw [extractVVars_eq _ _ hm1, extractVVars_eq _ _ hm, hname]
    apply guardRead_congr
    · rfl
    · intro h
      simp [hvv]
    · intro h
      simp [hvv]
  · unfold eraseVCompGlyph
    rw [if_neg hn]

theorem extractVComp_eraseV (n : String) (g : Glyph)
    (hg : g.name = n → ∃ m, g.math = some m ∧
      m.GlyphVariantsVertical = none) :
    extractVComp (eraseVCompGlyph n g) = extractVComp g := by
  by_cases hn : g.name = n
  · obtain ⟨m, hm, hvv⟩ := hg hn
    obtain ⟨hm1, hname⟩ := eraseVCompGlyph_fields n g m hn hm
    rw [extractVComp_eq _ _ hm1, extractVComp_eq _ _ hm, hname]
    apply guardRead_congr
    · simp [hvv]
    · intro h
      simp [(isEmpty_fields h).2.2.2.1]
    · intro h
      simp [hvv]
  · unfold eraseVCompGlyph
    rw [if_neg hn]

theorem extractHVars_eraseV (n : String) (g : Glyph)
    (hg : g.name = n → ∃ m, g.math = some m ∧
      m.GlyphVariantsVertical = none) :
    extractHVars (eraseVCompGlyph n g) = extractHVars g := by
  by_cases hn : g.name = n
  · obtain ⟨m, hm, hvv⟩ := hg hn
    obtain ⟨hm1, hname⟩ := eraseVCompGlyph_fields n g m hn hm
    rw [extractHVars_eq _ _ hm1, extractHVars_eq _ _ hm, hname]
    apply guardRead_congr
    · rfl
    · intro h
      simp [show m.GlyphVariantsHorizontal = none from (isEmpty_fields h).2.2.2.2.2.1]
    · intro h
      simp [show m.GlyphVariantsHorizontal = none from (isEmpty_fields h).2.2.2.2.2.1]
  · unfold eraseVCompGlyph
    rw [if_neg hn]

theorem extractHComp_eraseV (n : String) (g : Glyph)
    (hg : g.name = n → ∃ m, g.math = some m ∧
      m.GlyphVariantsVertical = none) :
    extractHComp (eraseVCompGlyph n g) = extractHComp g := by
  by_cases hn : g.name = n
  · obtain ⟨m, hm, hvv⟩ := hg hn
    obtain ⟨hm1, hname⟩ := eraseVCompGlyph_fields n g m hn hm
    rw [extractHComp_eq _ _ hm1, extractHComp_eq _ _ hm, hname]
    apply guardRead_congr
    · rfl
    · intro h
      simp [show m.GlyphVariantsHorizontal = none from (isEmpty_fields h).2.2.2.2.2.1]
    · intro h
      simp [show m.GlyphVariantsHorizontal = none from (isEmpty_fields h).2.2.2.2.2.1]
  · unfold eraseVCompGlyph
    rw [if_neg hn]

theorem filterMap_map_congr {γ : Type _} (f : Glyph → Option γ)
    (h : Glyph → Glyph) (l : List Glyph) (hfh : ∀ g ∈ l, f (h g) = f g) :
    (l.map h).filterMap f = l.filterMap f := by
  rw [List.filterMap_map]
  exact List.filterMap_congr (fun a ha => hfh a ha)

theorem postProcessMATH_eraseV (font : Font) (n : String)
    (hG : ∀ g' ∈ font.glyphs, g'.name = n →
      ∃ m, g'.math = some m ∧ m.GlyphVariantsVertical = none) :
    postProcessMATH (font.eraseVComp n) = postProcessMATH font := by
  have hIt : collectItalic (font.glyphs.map (eraseVCompGlyph n)) =
      collectItalic font.glyphs :=
    filterMap_map_congr _ _ _ (fun g hg => extractItalic_eraseV n g (hG g hg))
  have hAc : collectAccent (font.glyphs.map (eraseVCompGlyph n)) =
      collectAccent font.glyphs :=
    filterMap_map_congr _ _ _ (fun g hg => extractAccent_eraseV n g (hG g hg))
  have hEx : collectExtended (font.glyphs.map (eraseVCompGlyph n)) =
      collectExtended font.glyphs :=
    filterMap_map_congr _ _ _ (fun g hg => extractExtended_eraseV n g (hG g hg))
  have hVV : collectVVars (font.glyphs.map (eraseVCompGlyph n)) =
      collectVVars font.glyphs :=
    filterMap_map_congr _ _ _ (fun g hg => extractVVars_eraseV n g (hG g hg))
  have hVC : collectVComp (font.glyphs.map (eraseVCompGlyph n)) =
      collectVComp font.glyphs :=
    filterMap_map_congr _ _ _ (fun g hg => extractVComp_eraseV n g (hG g hg))
  have hHV : collectHVars (font.glyphs.map (eraseVCompGlyph n)) =
      collectHVars font.glyphs :=
    filterMap_map_congr _ _ _ (fun g hg => extractHVars_eraseV n g (hG g hg))
  have hHC : collectHComp (font.glyphs.map (eraseVCompGlyph n)) =
      collectHComp font.glyphs :=
    filterMap_map_congr _ _ _ (fun g hg => extractHComp_eraseV n g (hG g hg))
  unfold postProcessMATH Font.eraseVComp
  simp only [collectItalic, collectAccent, collectExtended, collectVVars,
    collectVComp, collectHVars, collectHComp] at hIt hAc hEx hVV hVC hHV hHC ⊢
  simp only [hIt, hAc, hEx, hVV, hVC, hHV, hHC]

theorem extractItalic_eraseH (n : String) (g : Glyph)
    (hg : g.name = n → ∃ m, g.math = some m ∧
      m.GlyphVariantsHorizontal = none) :
    extractItalic (eraseHCompGlyph n g) = extractItalic g := by
  by_cases hn : g.name = n
  · obtain ⟨m, hm, hhv⟩ := hg hn
    obtain ⟨hm1, hname⟩ := eraseHCompGlyph_fields n g m hn hm
    rw [extractItalic_eq _ _ hm1, extractItalic_eq _ _ hm, hname]
    apply guardRead_congr
    · rfl
    · intro h
      simp [show m.ItalicCorrection = none from (isEmpty_fields h).2.1]
    · intro h
      simp [show m.ItalicCorrection = none from (isEmpty_fields h).2.1]
  · unfold eraseHCompGlyph
    rw [if_neg hn]

theorem extractAccent_eraseH (n : String) (g : Glyph)
    (hg : g.name = n → ∃ m, g.math = some m ∧
      m.GlyphVariantsHorizontal = none) :
    extractAccent (eraseHCompGlyph n g) = extractAccent g := by
  by_cases hn : g.name = n
  · obtain ⟨m, hm, hhv⟩ := hg hn
    obtain ⟨hm1, hname⟩ := eraseHCompGlyph_fields n g m hn hm
    rw [extractAccent_eq _ _ hm1, extractAccent_eq _ _ hm, hname]
    apply guardRead_congr
    · rfl
    · intro h
      simp [show m.TopAccentHorizontal = none from (isEmpty_fields h).2.2.1]
    · intro h
      simp [show m.TopAccentHorizontal = none from (isEmpty_fields h).2.2.1]
  · unfold eraseHCompGlyph
    rw [if_neg hn]

theorem extractExtended_eraseH (n : String) (g : Glyph)
    (hg : g.name = n → ∃ m, g.math = some m ∧
      m.GlyphVariantsHorizontal = none) :
    extractExtended (eraseHCompGlyph n g) = extractExtended g := by
  by_cases hn : g.name = n
  · obtain ⟨m, hm, hhv⟩ := hg hn
    obtain ⟨hm1, hname⟩ := eraseHCompGlyph_fields n g m hn hm
    rw [extractExtended_eq _ _ hm1, extractExtended_eq _ _ hm, hname]
    apply guardRead_congr
    · rfl
    · intro h
      simp [show m.IsExtendedShape = none from (isEmpty_fields h).1]
    · intro h
      simp [show m.IsExtendedShape = none from (isEmpty_fields h).1]
  · unfold eraseHCompGlyph
    rw [if_neg hn]

theorem extractVVars_eraseH (n : String) (g : Glyph)
    (hg : g.name = n → ∃ m, g.math = some m ∧
      m.GlyphVariantsHorizontal = none) :
    extractVVars (eraseHCompGlyph n g) = extractVVars g := by
  by_cases hn : g.name = n
  · obtain ⟨m, hm, hhv⟩ := hg hn
    obtain ⟨hm1, hname⟩ := eraseHCompGlyph_fields n g m hn hm
    rw [extractVVars_eq _ _ hm1, extractVVars_eq _ _ hm, hname]
    apply guardRead_congr
    · rfl
    · intro h
      simp [show m.GlyphVariantsVertical = none from
        (isEmpty_fields h).2.2.2.1]
    · intro h
      simp [show m.GlyphVariantsVertical = none from
        (isEmpty_fields h).2.2.2.1]
  · unfold eraseHCompGlyph
    rw [if_neg hn]

theorem extractVComp_eraseH (n : String) (g : Glyph)
    (hg : g.name = n → ∃ m, g.math = some m ∧
      m.GlyphVariantsHorizontal = none) :
    extractVComp (eraseHCompGlyph n g) = extractVComp g := by
  by_cases hn : g.name = n
  · obtain ⟨m, hm, hhv⟩ := hg hn
    obtain ⟨hm1, hname⟩ := eraseHCompGlyph_fields n g m hn hm
    rw [extractVComp_eq _ _ hm1, extractVComp_eq _ _ hm, hname]
    apply guardRead_congr
    · rfl
    · intro h
      simp [show m.GlyphVariantsVertical = none from
        (isEmpty_fields h).2.2.2.1]
    · intro h
      simp [show m.GlyphVariantsVertical = none from
        (isEmpty_fields h).2.2.2.1]
  · unfold eraseHCompGlyph
    rw [if_neg hn]

theorem extractHVars_eraseH (n : String) (g : Glyph)
    (hg : g.name = n → ∃ m, g.math = some m ∧
      m.GlyphVariantsHorizontal = none) :
    extractHVars (eraseHCompGlyph n g) = extractHVars g := by
  by_cases hn : g.name = n
  · obtain ⟨m, hm, hhv⟩ := hg hn
    obtain ⟨hm1, hname⟩ := eraseHCompGlyph_fields n g m hn hm
    rw [extractHVars_eq _ _ hm1, extractHVars_eq _ _ hm, hname]
    apply guardRead_congr
    · rfl
    · intro h
      simp [hhv]
    · intro h
      simp [hhv]
  · unfold eraseHCompGlyph
    rw [if_neg hn]

theorem extractHComp_eraseH (n : String) (g : Glyph)
    (hg : g.name = n → ∃ m, g.math = some m ∧
      m.GlyphVariantsHorizontal = none) :
    extractHComp (eraseHCompGlyph n g) = extractHComp g := by
  by_cases hn : g.name = n
  · obtain ⟨m, hm, hhv⟩ := hg hn
    obtain ⟨hm1, hname⟩ := eraseHCompGlyph_fields n g m hn hm
    rw [extractHComp_eq _ _ hm1, extractHComp_eq _ _ hm, hname]
    apply guardRead_congr
    · simp [hhv]
    · intro h
      simp [hhv]
    · intro h
      simp [hhv]
  · unfold eraseHCompGlyph
    rw [if_neg hn]

theorem postProcessMATH_eraseH (font : Font) (n : String)
    (hG : ∀ g' ∈ font.glyphs, g'.name = n →
      ∃ m, g'.math = some m ∧ m.GlyphVariantsHorizontal = none) :
    postProcessMATH (font.eraseHComp n) = postProcessMATH font := by
  have hIt : collectItalic (font.glyphs.map (eraseHCompGlyph n)) =
      collectItalic font.glyphs :=
    filterMap_map_congr _ _ _ (fun g hg => extractItalic_eraseH n g (hG g hg))
  have hAc : collectAccent (font.glyphs.map (eraseHCompGlyph n)) =
      collectAccent font.glyphs :=
    filterMap_map_congr _ _ _ (fun g hg => extractAccent_eraseH n g (hG g hg))
  have hEx : collectExtended (font.glyphs.map (eraseHCompGlyph n)) =
      collectExtended font.glyphs :=
    filterMap_map_congr _ _ _ (fun g hg => extractExtended_eraseH n g (hG g hg))
  have hVV : collectVVars (font.glyphs.map (eraseHCompGlyph n)) =
      collectVVars font.glyphs :=
    filterMap_map_congr _ _ _ (fun g hg => extractVVars_eraseH n g (hG g hg))
  have hVC : collectVComp (font.glyphs.map (eraseHCompGlyph n)) =
      collectVComp font.glyphs :=
    filterMap_map_congr _ _ _ (fun g hg => extractVComp_eraseH n g (hG g hg))
  have hHV : collectHVars (font.glyphs.map (eraseHCompGlyph n)) =
      collectHVars font.glyphs :=
    filterMap_map_congr _ _ _ (fun g hg => extractHVars_eraseH n g (hG g hg))
  have hHC : collectHComp (font.glyphs.map (eraseHCompGlyph n)) =
      collectHComp font.glyphs :=
    filterMap_map_congr _ _ _ (fun g hg => extractHComp_eraseH n g (hG g hg))
  unfold postProcessMATH Font.eraseHComp
  simp only [collectItalic, collectAccent, collectExtended, collectVVars,
    collectVComp, collectHVars, collectHComp] at hIt hAc hEx hVV hVC hHV hHC ⊢
  simp only [hIt, hAc, hEx, hVV, hVC, hHV, hHC]

theorem extractVVars_key {g : Glyph} {p : String × List String}
    (h : extractVVars g = some p) : p.fst = g.name := by
  unfold extractVVars at h
  split at h
  · exact Option.noConfusion h
  · rename_i m hm
    cases hv : m.GlyphVariantsVertical with
    | none => rw [hv] at h; exact Option.noConfusion h
    | some vs =>
      rw [hv] at h
      simp only [Option.map_some', Option.some.injEq] at h
      rw [← h]

theorem extractVComp_key {g : Glyph} {p : String × List (String × String)}
    (h : extractVComp g = some p) : p.fst = g.name := by
  unfold extractVComp at h
  split at h
  · exact Option.noConfusion h
  · rename_i m hm
    split at h
    · exact Option.noConfusion h
    · cases hc : m.GlyphCompositionVertical with
      | none => rw [hc] at h; exact Option.noConfusion h
      | some c =>
        rw [hc] at h
        simp only [Option.map_some', Option.some.injEq] at h
        rw [← h]

theorem extractHVars_key {g : Glyph} {p : String × List String}
    (h : extractHVars g = some p) : p.fst = g.name := by
  unfold extractHVars at h
  split at h
  · exact Option.noConfusion h
  · rename_i m hm
    cases hv : m.GlyphVariantsHorizontal with
    | none => rw [hv] at h; exact Option.noConfusion h
    | some vs =>
      rw [hv] at h
      simp only [Option.map_some', Option.some.injEq] at h
      rw [← h]

theorem extractHComp_key {g : Glyph} {p : String × List (String × String)}
    (h : extractHComp g = some p) : p.fst = g.name := by
  unfold extractHComp at h
  split at h
  · exact Option.noConfusion h
  · rename_i m hm
    split at h
    · exact Option.noConfusion h
    · cases hc : m.GlyphCompositionHorizontal with
      | none => rw [hc] at h; exact Option.noConfusion h
      | some c =>
        rw [hc] at h
        simp only [Option.map_some', Option.some.injEq] at h
        rw [← h]

theorem extractItalic_key {g : Glyph} {p : String × ℚ}
    (h : extractItalic g = some p) : p.fst = g.name := by
  unfold extractItalic at h
  split at h
  · exact Option.noConfusion h
  · rename_i m hm
    cases hi : m.ItalicCorrection with
    | none => rw [hi] at h; exact Option.noConfusion h
    | some v =>
      rw [hi] at h
      simp only [Option.map_some', Option.some.injEq] at h
      rw [← h]

theorem extractAccent_key {g : Glyph} {p : String × ℚ}
    (h : extractAccent g = some p) : p.fst = g.name := by
  unfold extractAccent at h
  split at h
  · exact Option.noConfusion h
  · rename_i m hm
    cases hi : m.TopAccentHorizontal with
    | none => rw [hi] at h; exact Option.noConfusion h
    | some v =>
      rw [hi] at h
      simp only [Option.map_some', Option.some.injEq] at h
      rw [← h]

theorem extractExtended_key {g : Glyph} {s : String}
    (h : extractExtended g = some s) : s = g.name := by
  unfold extractExtended at h
  split at h
  · exact Option.noConfusion h
  · rename_i m hm
    split at h
    · exact (Option.some.injEq _ _).mp h.symm
    · exact Option.noConfusion h

/-- Glyph names are unique keys: with a duplicate-free name list, two
glyphs of the font with the same name are the same glyph. -/
theorem name_unique {glyphs : List Glyph}
    (hnd : (glyphs.map Glyph.name).Nodup) {g g' : Glyph}
    (hg : g ∈ glyphs) (hg' : g' ∈ glyphs) (h : g'.name = g.name) : g' = g :=
  List.inj_on_of_nodup_map hnd hg' hg h

theorem not_mem_keys {γ : Type _} {f : Glyph → Option (String × γ)}
    (hkeyf : ∀ {g : Glyph} {p : String × γ}, f g = some p → p.fst = g.name)
    {glyphs : List Glyph} (hnd : (glyphs.map Glyph.name).Nodup)
    {g : Glyph} (hg : g ∈ glyphs) (hext : f g = none) :
    g.name ∉ (glyphs.filterMap f).map Prod.fst := by
  intro hmem
  rw [List.mem_map] at hmem
  obtain ⟨p, hp, hfst⟩ := hmem
  rw [List.mem_filterMap] at hp
  obtain ⟨g', hg', hex⟩ := hp
  have heq : g' = g := name_unique hnd hg hg' (by rw [← hkeyf hex, hfst])
  subst heq
  rw [hext] at hex
  exact Option.noConfusion hex

theorem extractVVars_none {g : Glyph} {m : MathDict} (hm : g.math = some m)
    (hvv : m.GlyphVariantsVertical = none) : extractVVars g = none := by
  by_cases he : m.isEmpty = true <;>
    simp [extractVVars, glyphMath, hm, he, hvv]

theorem extractVComp_none {g : Glyph} {m : MathDict} (hm : g.math = some m)
    (hvv : m.GlyphVariantsVertical = none) : extractVComp g = none := by
  by_cases he : m.isEmpty = true <;>
    simp [extractVComp, glyphMath, hm, he, hvv]

theorem extractHVars_none {g : Glyph} {m : MathDict} (hm : g.math = some m)
    (hhv : m.GlyphVariantsHorizontal = none) : extractHVars g = none := by
  by_cases he : m.isEmpty = true <;>
    simp [extractHVars, glyphMath, hm, he, hhv]

theorem extractHComp_none {g : Glyph} {m : MathDict} (hm : g.math = some m)
    (hhv : m.GlyphVariantsHorizontal = none) : extractHComp g = none := by
  by_cases he : m.isEmpty = true <;>
    simp [extractHComp, glyphMath, hm, he, hhv]

/-- C10: for each axis, composition metadata matters only when the glyph
also declares size variants for that same axis: a glyph with (say) vertical
composition data but no vertical variants contributes to neither the `vvars`
nor the `vcomp` dict, appears in no vertical coverage table (hence gets no
construction on that axis), and the whole MATH post-processing result is
unchanged if its composition entry is deleted — it is silently ignored, not
an error. -/
theorem composition_requires_variants (font : Font) (g : Glyph)
    (hg : g ∈ font.glyphs)
    (hnd : (font.glyphs.map Glyph.name).Nodup)
    (m : MathDict) (hm : g.math = some m) :
    (m.GlyphVariantsVertical = none →
      g.name ∉ (collectVVars font.glyphs).map Prod.fst ∧
      g.name ∉ (collectVComp font.glyphs).map Prod.fst ∧
      (∀ cov, buildCoverage ((collectVVars font.glyphs).map Prod.fst)
          font.glyphOrder = some cov → g.name ∉ cov) ∧
      postProcessMATH (font.eraseVComp g.name) = postProcessMATH font) ∧
    (m.GlyphVariantsHorizontal = none →
      g.name ∉ (collectHVars font.glyphs).map Prod.fst ∧
      g.name ∉ (collectHComp font.glyphs).map Prod.fst ∧
      (∀ cov, buildCoverage ((collectHVars font.glyphs).map Prod.fst)
          font.glyphOrder = some cov → g.name ∉ cov) ∧
      postProcessMATH (font.eraseHComp g.name) = postProcessMATH font) := by
  constructor
  · intro hvv
    have hkeys : g.name ∉ (collectVVars font.glyphs).map Prod.fst :=
      not_mem_keys (fun h => extractVVars_key h) hnd hg
        (extractVVars_none hm hvv)
    refine ⟨hkeys, ?_, ?_, ?_⟩
    · exact not_mem_keys (fun h => extractVComp_key h) hnd hg
        (extractVComp_none hm hvv)
    · intro cov hcov hmem
      unfold buildCoverage at hcov
      split at hcov
      · exact Option.noConfusion hcov
      · cases hcov
        rw [List.mem_insertionSort] at hmem
        exact hkeys hmem
    · exact postProcessMATH_eraseV font g.name (fun g' hg' hn' => by
        rw [name_unique hnd hg hg' hn']
        exact ⟨m, hm, hvv⟩)
  · intro hhv
    have hkeys : g.name ∉ (collectHVars font.glyphs).map Prod.fst :=
      not_mem_keys (fun h => extractHVars_key h) hnd hg
        (extractHVars_none hm hhv)
    refine ⟨hkeys, ?_, ?_, ?_⟩
    · exact not_mem_keys (fun h => extractHComp_key h) hnd hg
        (extractHComp_none hm hhv)
    · intro cov hcov hmem
      unfold buildCoverage at hcov
      split at hcov
      · exact Option.noConfusion hcov
      · cases hcov
        rw [List.mem_insertionSort] at hmem
        exact hkeys hmem
    · exact postProcessMATH_eraseH font g.name (fun g' hg' hn' => by
        rw [name_unique hnd hg hg' hn']
        exact ⟨m, hm, hhv⟩)

/-- A font whose only glyph declares vertical composition data but no
vertical variants. -/
def exFontC10 : Font :=
  { glyphs := [⟨"q", 0, none,
      some ⟨none, none, none, none, some [("p", "1,2,3,4")], none, none⟩, []⟩]
    glyphOrder := ["q"]
    bounds := fun _ => none
    libMath := none
    features := "" }

theorem composition_requires_variants_witness :
    "q" ∉ (collectVVars exFontC10.glyphs).map Prod.fst ∧
    "q" ∉ (collectVComp exFontC10.glyphs).map Prod.fst ∧
    postProcessMATH (exFontC10.eraseVComp "q") = postProcessMATH exFontC10 := by
  have h := (composition_requires_variants exFontC10
    ⟨"q", 0, none,
      some ⟨none, none, none, none, some [("p", "1,2,3,4")], none, none⟩, []⟩
    (by simp [exFontC10]) (by simp [exFontC10])
    ⟨none, none, none, none, some [("p", "1,2,3,4")], none, none⟩ rfl).1 rfl
  exact ⟨h.1, h.2.1, h.2.2.2⟩

/-! ## Machinery for C4 (coverage order and determinism) -/

theorem sortByGid_sorted (order : List String) (l : List String)
    (hl : l.Nodup) (hsub : ∀ n ∈ l, n ∈ order) (_hord : order.Nodup) :
    (l.insertionSort (fun a b => order.indexOf a ≤ order.indexOf b)).Pairwise
      (fun a b => order.indexOf a < order.indexOf b) := by
  haveI : IsTotal String (fun a b => order.indexOf a ≤ order.indexOf b) :=
    ⟨fun a b => Nat.le_total _ _⟩
  haveI : IsTrans String (fun a b => order.indexOf a ≤ order.indexOf b) :=
    ⟨fun a b c hab hbc => Nat.le_trans hab hbc⟩
  have hsorted := List.sorted_insertionSort
    (fun a b => order.indexOf a ≤ order.indexOf b) l
  have hperm := List.perm_insertionSort
    (fun a b => order.indexOf a ≤ order.indexOf b) l
  have hnd2 : (l.insertionSort
      (fun a b => order.indexOf a ≤ order.indexOf b)).Nodup :=
    hperm.nodup_iff.mpr hl
  have hboth := List.Pairwise.and hsorted hnd2
  refine List.Pairwise.imp_of_mem ?_ hboth
  intro a b ha hb hr
  have hao : a ∈ order := hsub a (hperm.mem_iff.mp ha)
  have hbo : b ∈ order := hsub b (hperm.mem_iff.mp hb)
  exact lt_of_le_of_ne hr.1
    (fun e => hr.2 ((List.indexOf_inj hao hbo).mp e))

theorem buildCoverage_sorted (order : List String) (l : List String)
    (cov : List String) (hl : l.Nodup) (hsub : ∀ n ∈ l, n ∈ order)
    (hord : order.Nodup) (hc : buildCoverage l order = some cov) :
    cov.Pairwise (fun a b => order.indexOf a < order.indexOf b) := by
  unfold buildCoverage at hc
  split at hc
  · exact Option.noConfusion hc
  · cases hc
    exact sortByGid_sorted order l hl hsub hord

theorem buildCoverage_perm (order : List String) {l₁ l₂ : List String}
    (hp : l₁.Perm l₂) (hl : l₁.Nodup) (hsub : ∀ n ∈ l₁, n ∈ order)
    (hord : order.Nodup) :
    buildCoverage l₁ order = buildCoverage l₂ order := by
  have hemp : l₂.isEmpty = l₁.isEmpty := by
    have hlen := hp.length_eq
    cases l₁ <;> cases l₂ <;> simp_all
  unfold buildCoverage
  rw [hemp]
  by_cases h1 : l₁.isEmpty = true
  · rw [if_pos h1, if_pos h1]
  · rw [if_neg h1, if_neg h1]
    haveI : IsAntisymm String (fun a b => order.indexOf a < order.indexOf b) :=
      ⟨fun a b hab hba => absurd (Nat.lt_trans hab hba) (Nat.lt_irrefl _)⟩
    have hl₂ : l₂.Nodup := hp.nodup_iff.mp hl
    have hsub₂ : ∀ n ∈ l₂, n ∈ order := fun n hn => hsub n (hp.mem_iff.mpr hn)
    have hs₁ := sortByGid_sorted order l₁ hl hsub hord
    have hs₂ := sortByGid_sorted order l₂ hl₂ hsub₂ hord
    have hperm : (l₁.insertionSort
          (fun a b => order.indexOf a ≤ order.indexOf b)).Perm
        (l₂.insertionSort (fun a b => order.indexOf a ≤ order.indexOf b)) :=
      ((List.perm_insertionSort _ l₁).trans hp).trans
        (List.perm_insertionSort _ l₂).symm
    rw [List.eq_of_perm_of_sorted hperm hs₁ hs₂]

theorem dictGet_perm {β : Type _} {l₁ l₂ : List (String × β)}
    (hp : l₁.Perm l₂) :
    (l₁.map Prod.fst).Nodup → ∀ k, dictGet l₁ k = dictGet l₂ k := by
  induction hp with
  | nil => intro _ k; rfl
  | cons x p ih =>
    intro hnd k
    rw [List.map_cons] at hnd
    have hnd' := List.Nodup.of_cons hnd
    by_cases hx : (x.fst == k) = true
    · simp [dictGet, List.find?_cons, hx]
    · have hih := ih hnd' k
      unfold dictGet at hih
      simpa [dictGet, List.find?_cons, hx] using hih
  | swap x y l =>
    intro hnd k
    have hxy : y.fst ≠ x.fst := by
      simp only [List.map_cons, List.nodup_cons, List.mem_cons] at hnd
      exact fun e => hnd.1 (Or.inl e)
    by_cases h1 : (y.fst == k) = true <;> by_cases h2 : (x.fst == k) = true
    · exact absurd (by rw [beq_iff_eq] at h1 h2; rw [h1, h2])  hxy
    · simp [dictGet, List.find?_cons, h1, h2]
    · simp [dictGet, List.find?_cons, h1, h2]
    · simp [dictGet, List.find?_cons, h1, h2]
  | trans p₁ p₂ ih₁ ih₂ =>
    intro hnd k
    rw [ih₁ hnd k, ih₂ (by rwa [← (p₁.map Prod.fst).nodup_iff]) k]

theorem keys_sublist {γ : Type _} (f : Glyph → Option (String × γ))
    (hkeyf : ∀ {g : Glyph} {p : String × γ}, f g = some p → p.fst = g.name)
    (l : List Glyph) :
    ((l.filterMap f).map Prod.fst).Sublist (l.map Glyph.name) := by
  induction l with
  | nil => simp
  | cons g t ih =>
    rw [List.filterMap_cons]
    cases hf : f g with
    | none => exact ih.cons _
    | some p =>
      rw [List.map_cons, List.map_cons, hkeyf hf]
      exact ih.cons₂ _

theorem names_sublist (f : Glyph → Option String)
    (hkeyf : ∀ {g : Glyph} {s : String}, f g = some s → s = g.name)
    (l : List Glyph) : (l.filterMap f).Sublist (l.map Glyph.name) := by
  induction l with
  | nil => simp
  | cons g t ih =>
    rw [List.filterMap_cons]
    cases hf : f g with
    | none => exact ih.cons _
    | some s =>
      rw [List.map_cons, hkeyf hf]
      exact ih.cons₂ _

theorem buildConstructionVert_congr (bounds : String → Option BBox)
    {vc₁ vc₂ : List (String × List (String × String))}
    (hvc : dictGet vc₁ = dictGet vc₂) (name : String)
    (variants : List String) :
    buildConstructionVert bounds vc₁ name variants =
      buildConstructionVert bounds vc₂ name variants := by
  unfold buildConstructionVert
  rw [hvc]

theorem buildConstructionHoriz_congr (bounds : String → Option BBox)
    {hc₁ hc₂ : List (String × List (String × String))}
    (hhc : dictGet hc₁ = dictGet hc₂) (name : String)
    (variants : List String) :
    buildConstructionHoriz bounds hc₁ name variants =
      buildConstructionHoriz bounds hc₂ name variants := by
  unfold buildConstructionHoriz
  rw [hhc]

theorem buildVertConstructions_congr (bounds : String → Option BBox)
    {vv₁ vv₂ : List (String × List String)}
    {vc₁ vc₂ : List (String × List (String × String))}
    (hvv : dictGet vv₁ = dictGet vv₂) (hvc : dictGet vc₁ = dictGet vc₂) :
    ∀ names, buildVertConstructions bounds vv₁ vc₁ names =
      buildVertConstructions bounds vv₂ vc₂ names := by
  intro names
  induction names with
  | nil => rfl
  | cons n rest ih =>
    unfold buildVertConstructions
    rw [show buildConstructionVert bounds vc₁ n ((dictGet vv₁ n).getD []) =
          buildConstructionVert bounds vc₂ n ((dictGet vv₂ n).getD []) from by
        rw [hvv]
        exact buildConstructionVert_congr bounds hvc n _,
      ih]

theorem buildHorizConstructions_congr (bounds : String → Option BBox)
    {hv₁ hv₂ : List (String × List String)}
    {hc₁ hc₂ : List (String × List (String × String))}
    (hhv : dictGet hv₁ = dictGet hv₂) (hhc : dictGet hc₁ = dictGet hc₂) :
    ∀ names, buildHorizConstructions bounds hv₁ hc₁ names =
      buildHorizConstructions bounds hv₂ hc₂ names := by
  intro names
  induction names with
  | nil => rfl
  | cons n rest ih =>
    unfold buildHorizConstructions
    rw [show buildConstructionHoriz bounds hc₁ n ((dictGet hv₁ n).getD []) =
          buildConstructionHoriz bounds hc₂ n ((dictGet hv₂ n).getD []) from by
        rw [hhv]
        exact buildConstructionHoriz_congr bounds hhc n _,
      ih]

theorem buildMATHTable_glyphs_perm (order : List String)
    (bounds : String → Option BBox) (constants : List (String × ℚ))
    {glyphs₁ glyphs₂ : List Glyph} (hp : glyphs₁.Perm glyphs₂)
    (hnd : (glyphs₁.map Glyph.name).Nodup)
    (hsub : ∀ g ∈ glyphs₁, g.name ∈ order) (hord : order.Nodup) :
    buildMATHTable order bounds constants (collectItalic glyphs₁)
      (collectAccent glyphs₁) (collectExtended glyphs₁)
      (collectVVars glyphs₁) (collectVComp glyphs₁)
      (collectHVars glyphs₁) (collectHComp glyphs₁) =
    buildMATHTable order bounds constants (collectItalic glyphs₂)
      (collectAccent glyphs₂) (collectExtended glyphs₂)
      (collectVVars glyphs₂) (collectVComp glyphs₂)
      (collectHVars glyphs₂) (collectHComp glyphs₂) := by
  have keyIt : ∀ {g : Glyph} {p : String × ℚ},
      extractItalic g = some p → p.fst = g.name := fun h => extractItalic_key h
  have keyAc : ∀ {g : Glyph} {p : String × ℚ},
      extractAccent g = some p → p.fst = g.name := fun h => extractAccent_key h
  have keyVV : ∀ {g : Glyph} {p : String × List String},
      extractVVars g = some p → p.fst = g.name := fun h => extractVVars_key h
  have keyVC : ∀ {g : Glyph} {p : String × List (String × String)},
      extractVComp g = some p → p.fst = g.name := fun h => extractVComp_key h
  have keyHV : ∀ {g : Glyph} {p : String × List String},
      extractHVars g = some p → p.fst = g.name := fun h => extractHVars_key h
  have keyHC : ∀ {g : Glyph} {p : String × List (String × String)},
      extractHComp g = some p → p.fst = g.name := fun h => extractHComp_key h
  have subOf : ∀ {l : List String}, l.Sublist (glyphs₁.map Glyph.name) →
      ∀ n ∈ l, n ∈ order := by
    intro l hs n hn
    have hmem := hs.subset hn
    rw [List.mem_map] at hmem
    obtain ⟨g, hgmem, hg⟩ := hmem
    rw [← hg]
    exact hsub g hgmem
  have covIt : buildCoverage ((collectItalic glyphs₁).map Prod.fst) order =
      buildCoverage ((collectItalic glyphs₂).map Prod.fst) order :=
    buildCoverage_perm order ((hp.filterMap extractItalic).map Prod.fst)
      (((keys_sublist extractItalic keyIt glyphs₁).nodup) hnd)
      (subOf (keys_sublist extractItalic keyIt glyphs₁)) hord
  have covAc : buildCoverage ((collectAccent glyphs₁).map Prod.fst) order =
      buildCoverage ((collectAccent glyphs₂).map Prod.fst) order :=
    buildCoverage_perm order ((hp.filterMap extractAccent).map Prod.fst)
      (((keys_sublist extractAccent keyAc glyphs₁).nodup) hnd)
      (subOf (keys_sublist extractAccent keyAc glyphs₁)) hord
  have covEx : buildCoverage (collectExtended glyphs₁) order =
      buildCoverage (collectExtended glyphs₂) order :=
    buildCoverage_perm order (hp.filterMap extractExtended)
      (((names_sublist extractExtended
        (fun h => extractExtended_key h) glyphs₁).nodup) hnd)
      (subOf (names_sublist extractExtended
        (fun h => extractExtended_key h) glyphs₁)) hord
  have covVV : buildCoverage ((collectVVars glyphs₁).map Prod.fst) order =
      buildCoverage ((collectVVars glyphs₂).map Prod.fst) order :=
    buildCoverage_perm order ((hp.filterMap extractVVars).map Prod.fst)
      (((keys_sublist extractVVars keyVV glyphs₁).nodup) hnd)
      (subOf (keys_sublist extractVVars keyVV glyphs₁)) hord
  have covHV : buildCoverage ((collectHVars glyphs₁).map Prod.fst) order =
      buildCoverage ((collectHVars glyphs₂).map Prod.fst) order :=
    buildCoverage_perm order ((hp.filterMap extractHVars).map Prod.fst)
      (((keys_sublist extractHVars keyHV glyphs₁).nodup) hnd)
      (subOf (keys_sublist extractHVars keyHV glyphs₁)) hord
  have dIt : dictGet (collectItalic glyphs₁) = dictGet (collectItalic glyphs₂) :=
    funext (dictGet_perm (hp.filterMap extractItalic)
      (((keys_sublist extractItalic keyIt glyphs₁).nodup) hnd))
  have dAc : dictGet (collectAccent glyphs₁) = dictGet (collectAccent glyphs₂) :=
    funext (dictGet_perm (hp.filterMap extractAccent)
      (((keys_sublist extractAccent keyAc glyphs₁).nodup) hnd))
  have dVV : dictGet (collectVVars glyphs₁) = dictGet (collectVVars glyphs₂) :=
    funext (dictGet_perm (hp.filterMap extractVVars)
      (((keys_sublist extractVVars keyVV glyphs₁).nodup) hnd))
  have dVC : dictGet (collectVComp glyphs₁) = dictGet (collectVComp glyphs₂) :=
    funext (dictGet_perm (hp.filterMap extractVComp)
      (((keys_sublist extractVComp keyVC glyphs₁).nodup) hnd))
  have dHV : dictGet (collectHVars glyphs₁) = dictGet (collectHVars glyphs₂) :=
    funext (dictGet_perm (hp.filterMap extractHVars)
      (((keys_sublist extractHVars keyHV glyphs₁).nodup) hnd))
  have dHC : dictGet (collectHComp glyphs₁) = dictGet (collectHComp glyphs₂) :=
    funext (dictGet_perm (hp.filterMap extractHComp)
      (((keys_sublist extractHComp keyHC glyphs₁).nodup) hnd))
  have consV : buildVertConstructions bounds (collectVVars glyphs₁)
        (collectVComp glyphs₁) =
      buildVertConstructions bounds (collectVVars glyphs₂)
        (collectVComp glyphs₂) :=
    funext (buildVertConstructions_congr bounds dVV dVC)
  have consH : buildHorizConstructions bounds (collectHVars glyphs₁)
        (collectHComp glyphs₁) =
      buildHorizConstructions bounds (collectHVars glyphs₂)
        (collectHComp glyphs₂) :=
    funext (buildHorizConstructions_congr bounds dHV dHC)
  unfold buildMATHTable
  rw [covIt, covAc, covEx, covVV, covHV]
  simp only [dIt, dAc, consV, consH]

theorem postProcessMATH_glyphs_perm (glyphs₁ glyphs₂ : List Glyph)
    (order : List String) (bounds : String → Option BBox)
    (libMath : Option (List (String × ℚ))) (features₁ features₂ : String)
    (hp : glyphs₁.Perm glyphs₂) (hnd : (glyphs₁.map Glyph.name).Nodup)
    (hsub : ∀ g ∈ glyphs₁, g.name ∈ order) (hord : order.Nodup) :
    postProcessMATH ⟨glyphs₁, order, bounds, libMath, features₁⟩ =
      postProcessMATH ⟨glyphs₂, order, bounds, libMath, features₂⟩ := by
  unfold postProcessMATH
  cases libMath with
  | none => rfl
  | some constants =>
    by_cases hc : constants.isEmpty = true
    · simp [hc]
    · simp only [hc, Bool.false_eq_true, if_false, if_neg]
      rw [buildMATHTable_glyphs_perm order bounds constants hp hnd hsub hord]

/-- C4: every coverage table of the MATH builder (italic correction, top
accent, extended shape, vertical and horizontal variants) is strictly
increasing in glyph id, and the whole MATH post-processing result is
identical for two fonts whose glyph collections are equal as sets (the
per-glyph metadata dictionaries agree as maps) but are iterated in different
orders. -/
theorem coverage_sorted_deterministic (glyphs₁ glyphs₂ : List Glyph)
    (order : List String) (bounds : String → Option BBox)
    (libMath : Option (List (String × ℚ))) (features₁ features₂ : String)
    (hp : glyphs₁.Perm glyphs₂) (hnd : (glyphs₁.map Glyph.name).Nodup)
    (hsub : ∀ g ∈ glyphs₁, g.name ∈ order) (hord : order.Nodup) :
    (∀ cov, buildCoverage ((collectItalic glyphs₁).map Prod.fst) order =
        some cov →
      cov.Pairwise (fun a b => order.indexOf a < order.indexOf b)) ∧
    (∀ cov, buildCoverage ((collectAccent glyphs₁).map Prod.fst) order =
        some cov →
      cov.Pairwise (fun a b => order.indexOf a < order.indexOf b)) ∧
    (∀ cov, buildCoverage (collectExtended glyphs₁) order = some cov →
      cov.Pairwise (fun a b => order.indexOf a < order.indexOf b)) ∧
    (∀ cov, buildCoverage ((collectVVars glyphs₁).map Prod.fst) order =
        some cov →
      cov.Pairwise (fun a b => order.indexOf a < order.indexOf b)) ∧
    (∀ cov, buildCoverage ((collectHVars glyphs₁).map Prod.fst) order =
        some cov →
      cov.Pairwise (fun a b => order.indexOf a < order.indexOf b)) ∧
    postProcessMATH ⟨glyphs₁, order, bounds, libMath, features₁⟩ =
      postProcessMATH ⟨glyphs₂, order, bounds, libMath, features₂⟩ := by
  have subOf : ∀ {l : List String}, l.Sublist (glyphs₁.map Glyph.name) →
      ∀ n ∈ l, n ∈ order := by
    intro l hs n hn
    have hmem := hs.subset hn
    rw [List.mem_map] at hmem
    obtain ⟨g, hgmem, hg⟩ := hmem
    rw [← hg]
    exact hsub g hgmem
  have hIt := keys_sublist extractItalic (fun h => extractItalic_key h) glyphs₁
  have hAc := keys_sublist extractAccent (fun h => extractAccent_key h) glyphs₁
  have hEx := names_sublist extractExtended
    (fun h => extractExtended_key h) glyphs₁
  have hVV := keys_sublist extractVVars (fun h => extractVVars_key h) glyphs₁
  have hHV := keys_sublist extractHVars (fun h => extractHVars_key h) glyphs₁
  refine ⟨?_, ?_, ?_, ?_, ?_, ?_⟩
  · exact fun cov hc =>
      buildCoverage_sorted order _ cov (hIt.nodup hnd) (subOf hIt) hord hc
  · exact fun cov hc =>
      buildCoverage_sorted order _ cov (hAc.nodup hnd) (subOf hAc) hord hc
  · exact fun cov hc =>
      buildCoverage_sorted order _ cov (hEx.nodup hnd) (subOf hEx) hord hc
  · exact fun cov hc =>
      buildCoverage_sorted order _ cov (hVV.nodup hnd) (subOf hVV) hord hc
  · exact fun cov hc =>
      buildCoverage_sorted order _ cov (hHV.nodup hnd) (subOf hHV) hord hc
  · exact postProcessMATH_glyphs_perm glyphs₁ glyphs₂ order bounds libMath
      features₁ features₂ hp hnd hsub hord

/-- Glyph `x` (id 1) declaring an italic correction. -/
def glyphX : Glyph := ⟨"x", 0, none,
  some ⟨none, some 12, none, none, none, none, none⟩, []⟩

/-- Glyph `y` (id 0) declaring an italic correction. -/
def glyphY : Glyph := ⟨"y", 0, none,
  some ⟨none, some 7, none, none, none, none, none⟩, []⟩

theorem coverage_sorted_deterministic_witness :
    postProcessMATH ⟨[glyphX, glyphY], ["y", "x"], (fun _ => none),
        some [("MinConnectorOverlap", 54)], ""⟩ =
      postProcessMATH ⟨[glyphY, glyphX], ["y", "x"], (fun _ => none),
        some [("MinConnectorOverlap", 54)], ""⟩ :=
  (coverage_sorted_deterministic [glyphX, glyphY] [glyphY, glyphX]
    ["y", "x"] (fun _ => none) (some [("MinConnectorOverlap", 54)]) "" ""
    (List.Perm.swap glyphY glyphX [])
    (by decide) (by decide) (by decide)).2.2.2.2.2

end Libertinus
